import Mathlib

/-!
# LangSwap conversion pipeline — verification development

A shallow embedding of the LangSwap code-conversion core
(`BaseLanguageConverter` and its per-language subclasses, plus the
`convertCode` orchestrator) and proofs about it.

JavaScript strings are modelled as Lean `String`s (operating on their
`List Char` data); JavaScript numbers used as indices/levels are modelled
as `Int` where clamping matters and `Nat` elsewhere.  JavaScript's
truthiness on string-valued object fields (`undefined`/`''` falsy) is
modelled by `Option String` together with `strTruthy`.  The regular
expression replacements of the source are embedded as explicit left-to-right
scanners with the exact match/lookahead semantics of the JS patterns they
come from; each carries a comment naming its pattern.  `Warning` timestamps
(`new Date().toISOString()`) are an impure clock value and are omitted from
the warning record.
-/

namespace LangSwap

/-! ## Character and string utilities (JS semantics) -/

/-- JS whitespace class `\s`, restricted to the ASCII range (the embedding
does not model Unicode space characters). -/
def jsIsSpace (c : Char) : Bool :=
  c = ' ' || c = '\t' || c = '\n' || c = '\r' || c = '\x0b' || c = '\x0c'

/-- JS word character class `\w` = `[A-Za-z0-9_]`. -/
def isWordChar (c : Char) : Bool :=
  ('a' ≤ c && c ≤ 'z') || ('A' ≤ c && c ≤ 'Z') || ('0' ≤ c && c ≤ '9') || c = '_'

/-- Drop leading JS whitespace from a character list. -/
def dropLeadingWs : List Char → List Char
  | [] => []
  | c :: cs => if jsIsSpace c then dropLeadingWs cs else c :: cs

/-- `String.prototype.trimEnd` on a character list. -/
def trimEndL (l : List Char) : List Char :=
  (dropLeadingWs l.reverse).reverse

/-- `String.prototype.trim` on a character list. -/
def trimL (l : List Char) : List Char :=
  trimEndL (dropLeadingWs l)

/-- `String.prototype.trim`. -/
def jsTrim (s : String) : String := ⟨trimL s.data⟩

/-- `String.prototype.trimEnd` / `trimRight`. -/
def jsTrimEnd (s : String) : String := ⟨trimEndL s.data⟩

/-- `str.split('\n')` on a character list: list of '\n'-free lines. -/
def splitNLChars : List Char → List (List Char)
  | [] => [[]]
  | c :: cs =>
    if c = '\n' then [] :: splitNLChars cs
    else
      match splitNLChars cs with
      | [] => [[c]]
      | l :: ls => (c :: l) :: ls

/-- `str.split('\n')`. -/
def splitNL (s : String) : List String :=
  (splitNLChars s.data).map (fun l => ⟨l⟩)

/-- `lines.join('\n')` on character lists. -/
def joinNLChars : List (List Char) → List Char
  | [] => []
  | [l] => l
  | l :: ls => l ++ '\n' :: joinNLChars ls

/-- `lines.join('\n')`. -/
def joinNL (ls : List String) : String :=
  ⟨joinNLChars (ls.map String.data)⟩

/-- `'    '.repeat(n)`-style repetition. -/
def repeatStr (s : String) : Nat → String
  | 0 => ""
  | n + 1 => s ++ repeatStr s n

/-- Number of occurrences of a character (used for brace counting). -/
def countChar (c : Char) (s : String) : Nat :=
  s.data.countP (· = c)

/-- `a.isPrefixOf`-style check on char lists (JS `startsWith`). -/
def isPrefixL : List Char → List Char → Bool
  | [], _ => true
  | _ :: _, [] => false
  | p :: ps, c :: cs => p = c && isPrefixL ps cs

/-- `String.prototype.includes(sub)` : substring occurrence. -/
def containsSub (s sub : String) : Bool :=
  let rec go : List Char → Bool
    | [] => isPrefixL sub.data []
    | c :: cs => isPrefixL sub.data (c :: cs) || go cs
  go s.data

/-- JS `String.prototype.startsWith`. -/
def jsStartsWith (s p : String) : Bool :=
  isPrefixL p.data s.data

/-- JS `String.prototype.endsWith`. -/
def jsEndsWith (s p : String) : Bool :=
  isPrefixL p.data.reverse s.data.reverse

/-- JS truthiness of an optional string field (`undefined` and `''` falsy). -/
def strTruthy : Option String → Bool
  | none => false
  | some s => s ≠ ""

/-- `String.prototype.trimStart`. -/
def jsTrimStart (s : String) : String := ⟨dropLeadingWs s.data⟩

/-- Template-literal interpolation of an optional string
(`${node.f}` prints `undefined` for a missing field). -/
def tmpl : Option String → String
  | none => "undefined"
  | some s => s

/-- Split a character list at the first occurrence of `sub`
(JS `indexOf` + the two `substring`s): `none` when `sub` does not occur. -/
def splitAtFirst (sub : List Char) : List Char → Option (List Char × List Char)
  | [] => if sub = [] then some ([], []) else none
  | c :: cs =>
    if isPrefixL sub (c :: cs) then some ([], c :: cs)
    else (splitAtFirst sub cs).map (fun p => (c :: p.1, p.2))

/-! ## Data model

`Node` mirrors the plain objects built by the converters: a type tag (the
JS code uses string tags such as `'FunctionDefinition'`), the verbatim
`originalLine` fallback, positional data, the comment-related fields, the
structured fields populated by language-specific matchers, and the
`context` back-reference to the enclosing block node. -/

structure NodeData where
  ntype : String
  originalLine : Option String := none
  content : Option String := none
  line : Nat := 0
  indent : Nat := 0
  indentation : Option Nat := none
  inlineComment : Option String := none
  name : Option String := none
  parameters : Option (List String) := none
  returnType : Option String := none
  extendsName : Option String := none
  value : Option String := none
  dataType : Option String := none
  deriving Repr, DecidableEq

/-- A node: its own fields plus the weak back-reference to the enclosing
block node (`context`), which makes the type recursive. -/
inductive Node where
  | mk : NodeData → Option Node → Node
  deriving Repr

def Node.data : Node → NodeData
  | .mk d _ => d

def Node.context : Node → Option Node
  | .mk _ c => c

def Node.ntype (n : Node) : String := n.data.ntype

def Node.line (n : Node) : Nat := n.data.line

def Node.originalLine (n : Node) : Option String := n.data.originalLine

/-- `node.inlineComment = comment` (restoreCommentsToAST's in-place update). -/
def Node.setInlineComment : Node → String → Node
  | .mk d c, s => .mk { d with inlineComment := some s } c

/-- A diagnostic warning (`addWarning`); the impure `timestamp` field of the
source record is omitted. -/
structure Warning where
  message : String
  line : Option Nat := none
  language : String
  deriving Repr, DecidableEq

/-- An extracted comment record (`extractCommentsWithContext`). -/
structure CommentRec where
  ctype : String
  content : String
  originalLine : Nat
  indentation : Option Nat := none
  associatedCode : Option String := none
  deriving Repr, DecidableEq

/-- The shallow tree (a `Program` object).  `createAST` populates the
`metadata` fields (`totalLines`, `complexity`); the Python converter's
`parseToAST` override builds its `Program` without them, hence `Option`. -/
structure AST where
  body : List Node
  sourceLanguage : String
  originalCode : String
  totalLines : Option Nat := none
  complexity : Option Nat := none
  deriving Repr

/-- `convertCode`'s result object. -/
structure ConvResult where
  code : String
  warnings : List Warning
  deriving Repr, DecidableEq

/-! ## Conversion orchestrator (`convertCode`, vite.config.dev.js part) -/

/-- One entry of the supported-language registry. -/
structure LanguageInfo where
  value : String
  label : String
  extension : String
  deriving Repr, DecidableEq

/-- `SUPPORTED_LANGUAGES`: the ten supported languages, in source order. -/
def SUPPORTED_LANGUAGES : List LanguageInfo :=
  [ ⟨"javascript", "JavaScript", "js"⟩,
    ⟨"python", "Python", "py"⟩,
    ⟨"java", "Java", "java"⟩,
    ⟨"typescript", "TypeScript", "ts"⟩,
    ⟨"csharp", "C#", "cs"⟩,
    ⟨"cpp", "C++", "cpp"⟩,
    ⟨"php", "PHP", "php"⟩,
    ⟨"go", "Go", "go"⟩,
    ⟨"rust", "Rust", "rs"⟩,
    ⟨"kotlin", "Kotlin", "kt"⟩ ]

/-- The ten language identifiers (registry keys of `CONVERTERS`). -/
inductive Lang where
  | javascript | python | java | typescript | csharp
  | cpp | php | go | rust | kotlin
  deriving Repr, DecidableEq

/-- The `CONVERTERS` lookup table: identifier string to converter class. -/
def CONVERTERS (s : String) : Option Lang :=
  if s = "javascript" then some .javascript
  else if s = "python" then some .python
  else if s = "java" then some .java
  else if s = "typescript" then some .typescript
  else if s = "csharp" then some .csharp
  else if s = "cpp" then some .cpp
  else if s = "php" then some .php
  else if s = "go" then some .go
  else if s = "rust" then some .rust
  else if s = "kotlin" then some .kotlin
  else none

/-- The identifier strings of the registry. -/
def supportedValues : List String := SUPPORTED_LANGUAGES.map (·.value)

/-- `convertCode(sourceCode, fromLang, toLang)`.

The three pipeline steps inside the `try` block (source `parseToAST`,
target `generateFromAST`, target `formatCode`, with the converter pair
already resolved) are abstracted as the `pipeline` argument; an exception
from any stage is the `.error` case.  The guards, the lookup, the
formatted-output validity check and the `Conversion failed:` wrapping are
the source's. -/
def convertCode (pipeline : Lang → Lang → String → Except String ConvResult)
    (sourceCode fromLang toLang : String) : Except String ConvResult :=
  if jsTrim sourceCode = "" then
    .error "Please provide source code to convert"
  else if fromLang = toLang then
    .error "Source and target languages must be different"
  else
    match CONVERTERS fromLang, CONVERTERS toLang with
    | some fc, some tc =>
      match pipeline fc tc sourceCode with
      | .ok r =>
        if r.code = "" then
          .error "Conversion failed: Code formatting failed - invalid output"
        else .ok r
      | .error m => .error ("Conversion failed: " ++ m)
    | _, _ =>
      .error ("Conversion between " ++ fromLang ++ " and " ++ toLang ++
        " is not supported")

lemma CONVERTERS_eq_none_iff (s : String) :
    CONVERTERS s = none ↔ s ∉ supportedValues := by
  simp only [CONVERTERS, supportedValues, SUPPORTED_LANGUAGES, List.map_cons,
    List.map_nil, List.mem_cons, List.not_mem_nil]
  split_ifs <;> simp_all

/-- C1: if the source code is empty or whitespace-only, or the two language
tags are equal, or either tag is not one of the ten supported identifiers,
`convertCode` returns a descriptive error; the result does not depend on the
pipeline (no pipeline stage runs, no partial work is performed, and no
output object is produced). -/
theorem convertCode_rejects_bad_preconditions
    (p : Lang → Lang → String → Except String ConvResult)
    (src fromLang toLang : String)
    (h : jsTrim src = "" ∨ fromLang = toLang ∨
         fromLang ∉ supportedValues ∨ toLang ∉ supportedValues) :
    (∃ msg, convertCode p src fromLang toLang = Except.error msg) ∧
    ∀ q, convertCode p src fromLang toLang = convertCode q src fromLang toLang := by
  unfold convertCode
  rcases h with h | h | h | h
  · simp [h]
  · by_cases he : jsTrim src = "" <;> simp [he, h]
  · have hc := (CONVERTERS_eq_none_iff fromLang).mpr h
    by_cases he : jsTrim src = ""
    · simp [he]
    · by_cases hq : fromLang = toLang
      · simp [he, hq]
      · simp [he, hq, hc]
  · have hc := (CONVERTERS_eq_none_iff toLang).mpr h
    by_cases he : jsTrim src = ""
    · simp [he]
    · by_cases hq : fromLang = toLang
      · simp [he, hq]
      · rcases hf : CONVERTERS fromLang with _ | l
        · simp [he, hq, hf, hc]
        · simp [he, hq, hf, hc]

/-- C1 witness: `convertCode` at the concrete call
(`"x"`, `python`, `python`) with a concrete pipeline. -/
theorem convertCode_rejects_bad_preconditions_witness :
    (∃ msg, convertCode (fun _ _ _ => Except.ok ⟨"y", []⟩) "x" "python" "python"
      = Except.error msg) ∧
    ∀ q, convertCode (fun _ _ _ => Except.ok ⟨"y", []⟩) "x" "python" "python"
      = convertCode q "x" "python" "python" :=
  convertCode_rejects_bad_preconditions _ _ _ _ (Or.inr (Or.inl rfl))

/-! ## Java converter node formatters (java.js) -/

/-- `JavaConverter.formatFunctionDefinition`. -/
def javaFormatFunctionDefinition (n : Node) : String :=
  if strTruthy n.data.originalLine then (n.data.originalLine).getD "" else
    let params := match n.data.parameters with
      | some ps => String.intercalate ", " ps
      | none => ""
    let ret := if strTruthy n.data.returnType then (n.data.returnType).getD "" else "void"
    "public " ++ ret ++ " " ++ tmpl n.data.name ++ "(" ++ params ++ ") \x7b"

/-- `JavaConverter.formatClassDefinition`. -/
def javaFormatClassDefinition (n : Node) : String :=
  if strTruthy n.data.originalLine then (n.data.originalLine).getD "" else
    let ext := if strTruthy n.data.extendsName then
      " extends " ++ (n.data.extendsName).getD "" else ""
    "public class " ++ tmpl n.data.name ++ ext ++ " \x7b"

/-- `JavaConverter.formatVariableAssignment`. -/
def javaFormatVariableAssignment (n : Node) : String :=
  if strTruthy n.data.originalLine then (n.data.originalLine).getD "" else
    let assignment := if strTruthy n.data.value then
      " = " ++ (n.data.value).getD "" else ""
    let dt := if strTruthy n.data.dataType then (n.data.dataType).getD "" else "Object"
    dt ++ " " ++ tmpl n.data.name ++ assignment ++ ";"

/-- `JavaConverter.formatExpression`: trims the original line and appends a
`;` when it does not already end in `;`, `{` or `}`. -/
def javaFormatExpression (n : Node) : String :=
  if !strTruthy n.data.originalLine then "" else
    let line := jsTrim ((n.data.originalLine).getD "")
    if line ≠ "" && !jsEndsWith line ";" && !jsEndsWith line "\x7b" && !jsEndsWith line "\x7d" then
      line ++ ";"
    else line

/-- `JavaScriptConverter.formatExpression` (javascript.js): same shape as the
Java one — trim, then append a missing `;`. -/
def jsFormatExpression (n : Node) : String :=
  if !strTruthy n.data.originalLine then "" else
    let line := jsTrim ((n.data.originalLine).getD "")
    if line ≠ "" && !jsEndsWith line ";" && !jsEndsWith line "\x7b" && !jsEndsWith line "\x7d" then
      line ++ ";"
    else line

/-- C2 counterexample: a pass-through `Expression` node whose original text is
`foo()` is emitted by `JavaConverter.formatExpression` as `foo();` — a
character was added, refuting verbatim pass-through as claimed. -/
theorem formatExpression_not_verbatim :
    javaFormatExpression (Node.mk { ntype := "Expression", originalLine := some "foo()" } none)
      = "foo();" ∧
    javaFormatExpression (Node.mk { ntype := "Expression", originalLine := some "foo()" } none)
      ≠ "foo()" := by
  constructor
  · decide
  · decide

/-- C2 (amended): for a node with populated `originalLine` and no structured
fields consulted, the Java converter's `formatFunctionDefinition`,
`formatClassDefinition` and `formatVariableAssignment` return the original
text unchanged; `formatExpression` (Java and JavaScript converters) instead
returns the trimmed text, possibly with a `;` appended. -/
theorem format_passthrough_amended (n : Node) (s : String)
    (ho : n.originalLine = some s) (hs : s ≠ "") :
    javaFormatFunctionDefinition n = s ∧
    javaFormatClassDefinition n = s ∧
    javaFormatVariableAssignment n = s ∧
    (javaFormatExpression n = jsTrim s ∨ javaFormatExpression n = jsTrim s ++ ";") ∧
    (jsFormatExpression n = jsTrim s ∨ jsFormatExpression n = jsTrim s ++ ";") := by
  have ho' : n.data.originalLine = some s := by simpa [Node.originalLine] using ho
  have hts : strTruthy (some s) = true := by simp [strTruthy, hs]
  refine ⟨?_, ?_, ?_, ?_, ?_⟩
  · simp [javaFormatFunctionDefinition, ho', hts]
  · simp [javaFormatClassDefinition, ho', hts]
  · simp [javaFormatVariableAssignment, ho', hts]
  · simp only [javaFormatExpression, ho', hts, Bool.not_true, Bool.false_eq_true,
      if_false, Option.getD_some]
    split
    · exact Or.inr rfl
    · exact Or.inl rfl
  · simp only [jsFormatExpression, ho', hts, Bool.not_true, Bool.false_eq_true,
      if_false, Option.getD_some]
    split
    · exact Or.inr rfl
    · exact Or.inl rfl

/-- C2 witness: the amended statement at the node carrying `x = 1 `. -/
theorem format_passthrough_amended_witness :
    javaFormatFunctionDefinition (Node.mk { ntype := "Expression", originalLine := some "x = 1 " } none) = "x = 1 " ∧
    javaFormatClassDefinition (Node.mk { ntype := "Expression", originalLine := some "x = 1 " } none) = "x = 1 " ∧
    javaFormatVariableAssignment (Node.mk { ntype := "Expression", originalLine := some "x = 1 " } none) = "x = 1 " ∧
    (javaFormatExpression (Node.mk { ntype := "Expression", originalLine := some "x = 1 " } none) = jsTrim "x = 1 " ∨
     javaFormatExpression (Node.mk { ntype := "Expression", originalLine := some "x = 1 " } none) = jsTrim "x = 1 " ++ ";") ∧
    (jsFormatExpression (Node.mk { ntype := "Expression", originalLine := some "x = 1 " } none) = jsTrim "x = 1 " ∨
     jsFormatExpression (Node.mk { ntype := "Expression", originalLine := some "x = 1 " } none) = jsTrim "x = 1 " ++ ";") :=
  format_passthrough_amended _ _ rfl (by decide)

/-! ## Inline-comment extraction (python.js, javascript.js) -/

/-- `PythonConverter.hasInlineComment`: `line.includes('#')` — it does not
exclude markers inside string literals. -/
def pythonHasInlineComment (line : String) : Bool :=
  containsSub line "#"

/-- `PythonConverter.splitInlineComment`: split at the first `#`
(`line.indexOf('#')`), wherever it occurs. -/
def pythonSplitInlineComment (line : String) : String × String :=
  match splitAtFirst "#".data line.data with
  | none => (line, "")
  | some p => (jsTrim ⟨p.1⟩, jsTrim ⟨p.2⟩)

/-- `JavaScriptConverter.splitInlineComment`: split at the first `//`
(`line.indexOf('//')`), wherever it occurs. -/
def jsSplitInlineComment (line : String) : String × String :=
  match splitAtFirst "//".data line.data with
  | none => (line, "")
  | some p => (jsTrim ⟨p.1⟩, jsTrim ⟨p.2⟩)

/-- C5: at the failing inputs, the extractors split at a comment marker that
sits inside a string literal, truncating the clean code portion — the Python
pair treats the `#` inside `"a#b"` as a comment, and the JavaScript splitter
cuts the line at the `//` inside `"http://example.com"`. -/
theorem splitInlineComment_splits_inside_string_literal :
    pythonHasInlineComment "x = \"a#b\"" = true ∧
    pythonSplitInlineComment "x = \"a#b\"" = ("x = \"a", "#b\"") ∧
    jsSplitInlineComment "const url = \"http://example.com\"; // note"
      = ("const url = \"http:", "//example.com\"; // note") := by
  refine ⟨rfl, ?_, ?_⟩ <;> decide

/-! ## BaseLanguageConverter: line classification and tree building

The language-specific predicate and comment overrides of the subclasses
are collected in a `Hooks` record (the base class's own implementations are
the defaults); the `parse*` node constructors below are the base class's
(only javascript.js overrides them, with constructors of the same node
types). -/

structure Hooks where
  isFunctionDefinition : String → Bool := fun _ => false
  isClassDefinition : String → Bool := fun _ => false
  isVariableAssignment : String → Bool := fun _ => false
  isControlFlow : String → Bool := fun _ => false
  isImportExport : String → Bool := fun _ => false
  isFullLineComment : String → Bool := fun _ => false
  hasInlineComment : String → Bool := fun _ => false
  splitInlineComment : String → String × String := fun l => (l, "")
  isBlockStart : Node → Bool := fun _ => false
  isBlockEnd : String → Bool := fun _ => false

/-- The base class's own hook implementations (everything defaulted). -/
def baseHooks : Hooks := {}

def parseFunctionDefinitionB (line : String) (lineNumber indent : Nat)
    (context : Option Node) : Node :=
  .mk { ntype := "FunctionDefinition", originalLine := some line,
        line := lineNumber, indent := indent } context

def parseClassDefinitionB (line : String) (lineNumber indent : Nat)
    (context : Option Node) : Node :=
  .mk { ntype := "ClassDefinition", originalLine := some line,
        line := lineNumber, indent := indent } context

def parseVariableAssignmentB (line : String) (lineNumber indent : Nat)
    (context : Option Node) : Node :=
  .mk { ntype := "VariableAssignment", originalLine := some line,
        line := lineNumber, indent := indent } context

def parseControlFlowB (line : String) (lineNumber indent : Nat)
    (context : Option Node) : Node :=
  .mk { ntype := "ControlFlow", originalLine := some line,
        line := lineNumber, indent := indent } context

def parseImportExportB (line : String) (lineNumber indent : Nat) : Node :=
  .mk { ntype := "ImportExport", originalLine := some line,
        line := lineNumber, indent := indent } none

def parseExpressionB (line : String) (lineNumber indent : Nat)
    (context : Option Node) : Node :=
  .mk { ntype := "Expression", originalLine := some line,
        line := lineNumber, indent := indent } context

/-- `BaseLanguageConverter.parseLineToNode`: the ordered classification of a
line, falling through to a generic `Expression` node. -/
def parseLineToNode (h : Hooks) (line : String) (lineNumber : Nat)
    (context : Option Node) : Node :=
  let trimmedLine := jsTrim line
  let indent := line.length - (jsTrimStart line).length
  if h.isFunctionDefinition trimmedLine then
    parseFunctionDefinitionB trimmedLine lineNumber indent context
  else if h.isClassDefinition trimmedLine then
    parseClassDefinitionB trimmedLine lineNumber indent context
  else if h.isVariableAssignment trimmedLine then
    parseVariableAssignmentB trimmedLine lineNumber indent context
  else if h.isControlFlow trimmedLine then
    parseControlFlowB trimmedLine lineNumber indent context
  else if h.isImportExport trimmedLine then
    parseImportExportB trimmedLine lineNumber indent
  else
    parseExpressionB trimmedLine lineNumber indent context

/-- C3: classification is total (a Lean function), tests the predicates in
the fixed priority order function, class, variable, control flow,
import/export, and falls through to a generic `Expression` node carrying the
(trimmed) line text verbatim when no predicate matches. -/
theorem parseLineToNode_priority_and_fallback (h : Hooks) (line : String)
    (lineNumber : Nat) (context : Option Node) :
    (h.isFunctionDefinition (jsTrim line) = true →
      (parseLineToNode h line lineNumber context).ntype = "FunctionDefinition") ∧
    (h.isFunctionDefinition (jsTrim line) = false →
      h.isClassDefinition (jsTrim line) = true →
      (parseLineToNode h line lineNumber context).ntype = "ClassDefinition") ∧
    (h.isFunctionDefinition (jsTrim line) = false →
      h.isClassDefinition (jsTrim line) = false →
      h.isVariableAssignment (jsTrim line) = true →
      (parseLineToNode h line lineNumber context).ntype = "VariableAssignment") ∧
    (h.isFunctionDefinition (jsTrim line) = false →
      h.isClassDefinition (jsTrim line) = false →
      h.isVariableAssignment (jsTrim line) = false →
      h.isControlFlow (jsTrim line) = true →
      (parseLineToNode h line lineNumber context).ntype = "ControlFlow") ∧
    (h.isFunctionDefinition (jsTrim line) = false →
      h.isClassDefinition (jsTrim line) = false →
      h.isVariableAssignment (jsTrim line) = false →
      h.isControlFlow (jsTrim line) = false →
      h.isImportExport (jsTrim line) = true →
      (parseLineToNode h line lineNumber context).ntype = "ImportExport") ∧
    (h.isFunctionDefinition (jsTrim line) = false →
      h.isClassDefinition (jsTrim line) = false →
      h.isVariableAssignment (jsTrim line) = false →
      h.isControlFlow (jsTrim line) = false →
      h.isImportExport (jsTrim line) = false →
      parseLineToNode h line lineNumber context =
        parseExpressionB (jsTrim line) lineNumber
          (line.length - (jsTrimStart line).length) context ∧
      (parseLineToNode h line lineNumber context).ntype = "Expression" ∧
      (parseLineToNode h line lineNumber context).originalLine = some (jsTrim line)) := by
  refine ⟨?_, ?_, ?_, ?_, ?_, ?_⟩ <;> intro h1
  · simp [parseLineToNode, h1, parseFunctionDefinitionB, Node.ntype, Node.data]
  all_goals intro h2
  · simp [parseLineToNode, h1, h2, parseClassDefinitionB, Node.ntype, Node.data]
  all_goals intro h3
  · simp [parseLineToNode, h1, h2, h3, parseVariableAssignmentB, Node.ntype, Node.data]
  all_goals intro h4
  · simp [parseLineToNode, h1, h2, h3, h4, parseControlFlowB, Node.ntype, Node.data]
  all_goals intro h5
  · simp [parseLineToNode, h1, h2, h3, h4, h5, parseImportExportB, Node.ntype, Node.data]
  · simp [parseLineToNode, h1, h2, h3, h4, h5, parseExpressionB, Node.ntype,
      Node.data, Node.originalLine]

/-- C3 witness: with the base hooks (no predicate matches) the line
`"  foo  "` becomes a verbatim `Expression` node. -/
theorem parseLineToNode_priority_and_fallback_witness :
    parseLineToNode baseHooks "  foo  " 3 none =
      parseExpressionB (jsTrim "  foo  ") 3
        ("  foo  ".length - (jsTrimStart "  foo  ").length) none ∧
    (parseLineToNode baseHooks "  foo  " 3 none).ntype = "Expression" ∧
    (parseLineToNode baseHooks "  foo  " 3 none).originalLine = some (jsTrim "  foo  ") :=
  (parseLineToNode_priority_and_fallback baseHooks "  foo  " 3 none).2.2.2.2.2
    rfl rfl rfl rfl rfl

/-! ## Regex-replacement scanners shared by the `formatCode` passes

Each definition embeds one `String.prototype.replace(/…/g, …)` call as a
left-to-right scan with the JS pattern's match and lookahead semantics. -/

/-- The negative-lookahead test `(?=\s*[\r\n])`: the maximal leading
whitespace run of the remainder contains a `\r` or `\n`. -/
def followedByNL (l : List Char) : Bool :=
  (l.takeWhile jsIsSpace).any (fun c => c = '\r' || c = '\n')

lemma len_takeWhile_le (p : Char → Bool) (l : List Char) :
    (l.takeWhile p).length ≤ l.length :=
  (List.takeWhile_prefix p).length_le

lemma len_drop_le (n : Nat) (l : List Char) : (l.drop n).length ≤ l.length := by
  rw [List.length_drop]; omega

/-- `.replace(/;\s*;/g, ';')`. -/
def repSemiSemi : List Char → List Char
  | [] => []
  | c :: cs =>
    if c = ';' then
      if h : (cs.drop (cs.takeWhile jsIsSpace).length).head? = some ';' then
        ';' :: repSemiSemi (cs.drop (cs.takeWhile jsIsSpace).length).tail
      else c :: repSemiSemi cs
    else c :: repSemiSemi cs
termination_by l => l.length
decreasing_by
  · have h1 := len_drop_le (cs.takeWhile jsIsSpace).length cs
    have h2 : cs.drop (cs.takeWhile jsIsSpace).length ≠ [] := by
      intro hnil; rw [hnil] at h; exact Option.noConfusion h
    have h3 := List.length_tail (cs.drop (cs.takeWhile jsIsSpace).length)
    have h4 : 0 < (cs.drop (cs.takeWhile jsIsSpace).length).length :=
      List.length_pos.mpr h2
    simp only [List.length_cons]
    omega
  · simp
  · simp

/-- `.replace(/;(?!\s*[\r\n])/g, ';\n')`. -/
def insSemiNL : List Char → List Char
  | [] => []
  | c :: cs =>
    if c = ';' && !followedByNL cs then ';' :: '\n' :: insSemiNL cs
    else c :: insSemiNL cs

/-- `.replace(/\{(?!\s*[\r\n])/g, ' {\n')`. -/
def insBraceOpen : List Char → List Char
  | [] => []
  | c :: cs =>
    if c = '{' && !followedByNL cs then ' ' :: '{' :: '\n' :: insBraceOpen cs
    else c :: insBraceOpen cs

/-- `.replace(/\}(?!\s*[\r\n])/g, '\n}\n')`. -/
def insBraceClose : List Char → List Char
  | [] => []
  | c :: cs =>
    if c = '}' && !followedByNL cs then '\n' :: '}' :: '\n' :: insBraceClose cs
    else c :: insBraceClose cs

/-- `.replace(/(kw1|kw2|…)\s+/g, '$1 ')`: collapse the whitespace after a
keyword occurrence to a single space (no word boundary in the pattern; none
of the alternatives is a prefix of another, so the first prefix match is the
regex's choice). -/
def kwWsCollapse (kws : List (List Char)) : List Char → List Char
  | [] => []
  | c :: cs =>
    match kws.find? (fun kw => isPrefixL kw (c :: cs)) with
    | some kw =>
      let after := (c :: cs).drop kw.length
      let run := after.takeWhile jsIsSpace
      if hrun : run.length = 0 then c :: kwWsCollapse kws cs
      else kw ++ ' ' :: kwWsCollapse kws (after.drop run.length)
    | none => c :: kwWsCollapse kws cs
termination_by l => l.length
decreasing_by
  · simp
  · unfold_let run after at hrun ⊢
    have h1 := len_drop_le kw.length (c :: cs)
    have h2 := len_takeWhile_le jsIsSpace ((c :: cs).drop kw.length)
    simp only [List.length_drop, List.length_cons] at *
    omega

/-- `.replace(/(kw1|…)\s*\(/g, '$1 (')`. -/
def kwWsParen (kws : List (List Char)) : List Char → List Char
  | [] => []
  | c :: cs =>
    match kws.find? (fun kw => isPrefixL kw (c :: cs)) with
    | some kw =>
      if h : (((c :: cs).drop kw.length).drop
          (((c :: cs).drop kw.length).takeWhile jsIsSpace).length).head? = some '(' then
        kw ++ ' ' :: '(' :: kwWsParen kws
          (((c :: cs).drop kw.length).drop
            (((c :: cs).drop kw.length).takeWhile jsIsSpace).length).tail
      else c :: kwWsParen kws cs
    | none => c :: kwWsParen kws cs
termination_by l => l.length
decreasing_by
  · have h1 := len_drop_le kw.length (c :: cs)
    have h2 := len_drop_le (((c :: cs).drop kw.length).takeWhile jsIsSpace).length
      ((c :: cs).drop kw.length)
    have h3 : ((c :: cs).drop kw.length).drop
        (((c :: cs).drop kw.length).takeWhile jsIsSpace).length ≠ [] := by
      intro hnil; rw [hnil] at h; exact Option.noConfusion h
    have h4 := List.length_pos.mpr h3
    have h5 := List.length_tail (((c :: cs).drop kw.length).drop
      (((c :: cs).drop kw.length).takeWhile jsIsSpace).length)
    simp only [List.length_cons] at *
    omega
  · simp

/-- `.replace(/\)\s*\{/g, ') {')`. -/
def parenBraceFix : List Char → List Char
  | [] => []
  | c :: cs =>
    if c = ')' then
      if h : (cs.drop (cs.takeWhile jsIsSpace).length).head? = some '{' then
        ')' :: ' ' :: '{' :: parenBraceFix (cs.drop (cs.takeWhile jsIsSpace).length).tail
      else c :: parenBraceFix cs
    else c :: parenBraceFix cs
termination_by l => l.length
decreasing_by
  · have h1 := len_drop_le (cs.takeWhile jsIsSpace).length cs
    have h2 : cs.drop (cs.takeWhile jsIsSpace).length ≠ [] := by
      intro hnil; rw [hnil] at h; exact Option.noConfusion h
    have h3 := List.length_pos.mpr h2
    have h4 := List.length_tail (cs.drop (cs.takeWhile jsIsSpace).length)
    simp only [List.length_cons]
    omega
  · simp
  · simp

/-! ## Final blank-line normalization

`.replace(/\n{3,}/g, '\n\n').replace(/^\n+/, '').replace(/\n*$/, '\n')`,
the last三 steps of every brace-language `formatCode`. -/

/-- What a run of `k` consecutive newlines becomes under
`.replace(/\n{3,}/g, '\n\n')`. -/
def emitNL (k : Nat) : List Char :=
  if 3 ≤ k then ['\n', '\n'] else List.replicate k '\n'

/-- `.replace(/\n{3,}/g, '\n\n')`: `k` counts the pending newline run. -/
def collapse3Go : Nat → List Char → List Char
  | k, [] => emitNL k
  | k, c :: cs =>
    if c = '\n' then collapse3Go (k + 1) cs
    else emitNL k ++ c :: collapse3Go 0 cs

def collapse3 (l : List Char) : List Char := collapse3Go 0 l

/-- `.replace(/^\n+/, '')`. -/
def stripLeadingNLs (l : List Char) : List Char := l.dropWhile (· = '\n')

/-- `.replace(/\n*$/, '\n')`: drop the trailing newline run, append one. -/
def ensureTrailingNL (l : List Char) : List Char :=
  (l.reverse.dropWhile (· = '\n')).reverse ++ ['\n']

/-- The composed final normalization. -/
def finalizeOutput (s : String) : String :=
  ⟨ensureTrailingNL (stripLeadingNLs (collapse3 s.data))⟩

/-- Three consecutive newline characters occur somewhere. -/
def hasTriple : List Char → Bool
  | a :: b :: c :: rest =>
    (a = '\n' && b = '\n' && c = '\n') || hasTriple (b :: c :: rest)
  | _ => false

lemma hasTriple_cons_of_ne {c : Char} (hc : c ≠ '\n') (l : List Char) :
    hasTriple (c :: l) = hasTriple l := by
  match l with
  | [] => rfl
  | [_] => rfl
  | a :: b :: rest => simp [hasTriple, hc]

lemma hasTriple_emitNL (k : Nat) : hasTriple (emitNL k) = false := by
  unfold emitNL
  split
  · decide
  · next h => interval_cases k <;> decide

lemma hasTriple_nl_cons {c : Char} (hc : c ≠ '\n') (l : List Char)
    (h : hasTriple (c :: l) = false) : hasTriple ('\n' :: c :: l) = false := by
  match l with
  | [] => rfl
  | a :: rest => simp only [hasTriple] at h ⊢; simp [hc, h]

lemma hasTriple_nl_nl_cons {c : Char} (hc : c ≠ '\n') (l : List Char)
    (h : hasTriple (c :: l) = false) :
    hasTriple ('\n' :: '\n' :: c :: l) = false := by
  have h2 := hasTriple_nl_cons hc l h
  simp only [hasTriple] at h2 ⊢
  simp [hc] at h2 ⊢
  exact h2

lemma collapse3Go_noTriple (l : List Char) : ∀ k, hasTriple (collapse3Go k l) = false := by
  induction l with
  | nil => intro k; exact hasTriple_emitNL k
  | cons c cs ih =>
    intro k
    unfold collapse3Go
    by_cases hc : c = '\n'
    · simp only [hc, if_true]
      exact ih (k + 1)
    · simp only [hc, if_false]
      have h0 : hasTriple (c :: collapse3Go 0 cs) = false := by
        rw [hasTriple_cons_of_ne hc]; exact ih 0
      unfold emitNL
      split
      · exact hasTriple_nl_nl_cons hc _ h0
      · next hk =>
        interval_cases k
        · simpa using h0
        · simpa using hasTriple_nl_cons hc _ h0
        · simpa using hasTriple_nl_nl_cons hc _ h0

lemma hasTriple_of_prefix : ∀ (t r : List Char),
    hasTriple (t ++ r) = false → hasTriple t = false
  | [], _, _ => rfl
  | [_], _, _ => rfl
  | [_, _], _, _ => rfl
  | a :: b :: c :: t', r, h => by
    simp only [List.cons_append, hasTriple, Bool.or_eq_false_iff] at h ⊢
    exact ⟨h.1, hasTriple_of_prefix (b :: c :: t') r h.2⟩

lemma hasTriple_tail_false {c : Char} {l : List Char}
    (h : hasTriple (c :: l) = false) : hasTriple l = false := by
  match l with
  | [] => rfl
  | [_] => rfl
  | a :: b :: rest =>
    simp only [hasTriple, Bool.or_eq_false_iff] at h
    exact h.2

lemma hasTriple_of_suffix : ∀ (r t : List Char),
    hasTriple (r ++ t) = false → hasTriple t = false
  | [], _, h => h
  | c :: r', t, h => hasTriple_of_suffix r' t (hasTriple_tail_false h)

lemma hasTriple_append_one_nl : ∀ (w : List Char), hasTriple w = false →
    w.getLast? ≠ some '\n' → hasTriple (w ++ ['\n']) = false
  | [], _, _ => rfl
  | [a], _, _ => rfl
  | [a, b], _, hlast => by
    have hb : b ≠ '\n' := by
      intro hb; exact hlast (by simp [hb])
    simp [hasTriple, hb]
  | a :: b :: c :: w', hW, hlast => by
    simp only [hasTriple, Bool.or_eq_false_iff] at hW
    have hrec := hasTriple_append_one_nl (b :: c :: w') hW.2
      (by rwa [List.getLast?_cons_cons] at hlast)
    simp only [List.cons_append, hasTriple, Bool.or_eq_false_iff]
    exact ⟨hW.1, by simpa using hrec⟩

lemma head?_dropWhile_ne (p : Char → Bool) :
    ∀ (l : List Char) (a : Char), (l.dropWhile p).head? = some a → p a = false := by
  intro l
  induction l with
  | nil => intro a h; simp [List.dropWhile] at h
  | cons c cs ih =>
    intro a h
    rw [List.dropWhile_cons] at h
    by_cases hc : p c = true
    · rw [if_pos hc] at h; exact ih a h
    · rw [if_neg hc] at h
      simp at h
      rw [← h]
      simpa using hc

lemma ensure_strip_props (C W : List Char) (hC : hasTriple C = false)
    (hWdef : W = ((C.dropWhile (· = '\n')).reverse.dropWhile (· = '\n')).reverse) :
    hasTriple (W ++ ['\n']) = false ∧
    (W = [] ∨ (isPrefixL ['\n'] (W ++ ['\n']) = false ∧
       isPrefixL ['\n'] (W ++ ['\n']).reverse = true ∧
       isPrefixL ['\n', '\n'] (W ++ ['\n']).reverse = false)) := by
  have hZtriple : hasTriple (C.dropWhile (· = '\n')) = false := by
    obtain ⟨r, hr⟩ := List.dropWhile_suffix (l := C) (· = '\n')
    exact hasTriple_of_suffix r _ (by rw [hr]; exact hC)
  have hZhead : ∀ a, (C.dropWhile (· = '\n')).head? = some a → a ≠ '\n' := by
    intro a ha hna
    have := head?_dropWhile_ne _ C a ha
    simp [hna] at this
  have hWpre : W <+: C.dropWhile (· = '\n') := by
    rw [hWdef]
    have hsuf := List.dropWhile_suffix
      (l := (C.dropWhile (· = '\n')).reverse) (· = '\n')
    exact List.reverse_suffix.mp (by simpa using hsuf)
  have hWtriple : hasTriple W = false := by
    obtain ⟨r, hr⟩ := hWpre
    exact hasTriple_of_prefix W r (by rw [hr]; exact hZtriple)
  have hWlast : W.getLast? ≠ some '\n' := by
    intro hlast
    rw [hWdef, List.getLast?_reverse] at hlast
    have := head?_dropWhile_ne (· = '\n') (C.dropWhile (· = '\n')).reverse '\n' hlast
    simp at this
  refine ⟨hasTriple_append_one_nl W hWtriple hWlast, ?_⟩
  match hW0 : W with
  | [] => exact Or.inl rfl
  | w0 :: W' =>
    right
    refine ⟨?_, ?_, ?_⟩
    · have hw0 : w0 ≠ '\n' := by
        obtain ⟨r, hr⟩ := hWpre
        exact hZhead w0 (by rw [← hr]; rfl)
      simp [isPrefixL, Ne.symm hw0]
    · simp [isPrefixL]
    · have hrev : ((w0 :: W') ++ ['\n']).reverse = '\n' :: (w0 :: W').reverse := by
        simp
      rw [hrev]
      have hlast1 : isPrefixL ['\n'] (w0 :: W').reverse = false := by
        cases hWr : (w0 :: W').reverse with
        | nil => simp at hWr
        | cons a t =>
          have hga : (w0 :: W').getLast? = some a := by
            rw [← List.head?_reverse, hWr]; rfl
          have ha : a ≠ '\n' := fun h => hWlast (by rw [hga, h])
          simp [isPrefixL, Ne.symm ha]
      show isPrefixL ('\n' :: '\n' :: []) ('\n' :: (w0 :: W').reverse) = false
      rw [List.reverse_cons] at hlast1
      simp only [isPrefixL]
      simp [hlast1]

/-- C7 core lemma: the final normalization yields text with no run of three
newlines, and either the bare `"\n"` (everything normalized away) or text
that does not start with a newline and ends with exactly one. -/
lemma finalizeOutput_props (s : String) :
    hasTriple (finalizeOutput s).data = false ∧
    (finalizeOutput s = "\n" ∨
      (jsStartsWith (finalizeOutput s) "\n" = false ∧
       jsEndsWith (finalizeOutput s) "\n" = true ∧
       jsEndsWith (finalizeOutput s) "\n\n" = false)) := by
  have key := ensure_strip_props (collapse3 s.data)
    (((collapse3 s.data).dropWhile (· = '\n')).reverse.dropWhile (· = '\n')).reverse
    (collapse3Go_noTriple s.data 0) rfl
  have hE : (finalizeOutput s).data =
      ((((collapse3 s.data).dropWhile (· = '\n')).reverse.dropWhile (· = '\n')).reverse)
        ++ ['\n'] := rfl
  refine ⟨by rw [hE]; exact key.1, ?_⟩
  rcases key.2 with hnil | ⟨h1, h2, h3⟩
  · left
    have : (finalizeOutput s).data = ['\n'] := by rw [hE, hnil]; rfl
    have hnl : ("\n" : String).data = ['\n'] := rfl
    cases hfo : finalizeOutput s with
    | mk d =>
      rw [hfo] at this
      simp only [String.data] at this
      rw [this]
  · right
    refine ⟨?_, ?_, ?_⟩
    · show isPrefixL ("\n").data (finalizeOutput s).data = false
      rw [hE]; exact h1
    · show isPrefixL ("\n").data.reverse (finalizeOutput s).data.reverse = true
      rw [hE]; exact h2
    · show isPrefixL ("\n\n").data.reverse (finalizeOutput s).data.reverse = false
      rw [hE]; exact h3

/-! ## Kotlin and Java `formatCode` (kotlin.js, java.js) -/

def kotlinKws : List (List Char) :=
  ["fun", "class", "interface", "object", "enum", "if", "else", "for",
   "while", "when", "try", "catch", "finally"].map String.data

/-- `KotlinConverter.formatCode`'s preprocessing replacements, in source
order. -/
def kotlinPreprocess (code : String) : List Char :=
  parenBraceFix (kwWsCollapse kotlinKws
    (insBraceClose (insBraceOpen (insSemiNL (repSemiSemi code.data)))))

/-- `KotlinConverter.formatCode`'s line loop: tracks the indent level (a JS
number, clamped at zero on closing braces) and the emitted lines. -/
def kotlinLoop : List String → List String → Int → List String × Int
  | [], formatted, lvl => (formatted, lvl)
  | line :: rest, formatted, lvl =>
    let trimmed := jsTrim line
    if trimmed = "" then
      if formatted.length > 0 ∧ formatted.getLast? ≠ some "" then
        kotlinLoop rest (formatted ++ [""]) lvl
      else kotlinLoop rest formatted lvl
    else if trimmed = ";" then
      kotlinLoop rest formatted lvl
    else
      let lvl1 := if trimmed = "\x7d" || jsStartsWith trimmed "\x7d " then
        max 0 (lvl - 1) else lvl
      let newLine := repeatStr "    " lvl1.toNat ++ trimmed
      let lvl2 := if jsEndsWith trimmed "\x7b" then lvl1 + 1 else lvl1
      kotlinLoop rest (formatted ++ [newLine]) lvl2

/-- The loop run over the preprocessed, split input (start level 0). -/
def kotlinFormatRun (code : String) : List String × Int :=
  kotlinLoop ((splitNLChars (kotlinPreprocess code)).map (fun l => (⟨l⟩ : String))) [] 0

/-- `KotlinConverter.formatCode`. -/
def kotlinFormatCode (code : String) : String :=
  if code = "" then "" else finalizeOutput (joinNL (kotlinFormatRun code).1)

def javaModifierKws : List (List Char) :=
  ["public", "private", "protected", "static", "final", "abstract"].map String.data

def javaTypeKws : List (List Char) :=
  ["class", "interface", "enum"].map String.data

def javaCtrlKws : List String :=
  ["if", "else", "for", "while", "do", "try", "catch", "finally", "switch"]

/-- `JavaConverter.formatCode`'s preprocessing replacements, in source
order. -/
def javaPreprocess (code : String) : List Char :=
  parenBraceFix (kwWsParen (javaCtrlKws.map String.data)
    (kwWsCollapse javaTypeKws (kwWsCollapse javaModifierKws
      (insBraceClose (insBraceOpen (insSemiNL (repSemiSemi code.data)))))))

/-- `^(kw1|…)\b` on an (already trimmed) line: starts with one of the
keywords at a word boundary. -/
def startsWithWordAny (kws : List String) (t : String) : Bool :=
  kws.any (fun kw => jsStartsWith t kw &&
    (decide (t.length = kw.length) || !isWordChar (t.data.getD kw.length ' ')))

/-- `JavaConverter.formatCode`'s line loop (the extra control-structure and
class/interface/enum indent rules included). -/
def javaLoop : List String → List String → Int → List String × Int
  | [], formatted, lvl => (formatted, lvl)
  | line :: rest, formatted, lvl =>
    let trimmed := jsTrim line
    if trimmed = "" then
      if formatted.length > 0 ∧ formatted.getLast? ≠ some "" then
        javaLoop rest (formatted ++ [""]) lvl
      else javaLoop rest formatted lvl
    else if trimmed = ";" then
      javaLoop rest formatted lvl
    else
      let lvl1 := if trimmed = "\x7d" || jsStartsWith trimmed "\x7d " then
        max 0 (lvl - 1) else lvl
      let newLine := repeatStr "    " lvl1.toNat ++ trimmed
      let lvl2 := if jsEndsWith trimmed "\x7b" ||
          (startsWithWordAny javaCtrlKws trimmed && jsEndsWith trimmed ")") then
        lvl1 + 1 else lvl1
      let lvl3 := if (containsSub trimmed "class " || containsSub trimmed "interface " ||
          containsSub trimmed "enum " ||
          ((jsStartsWith trimmed "public" || jsStartsWith trimmed "private" ||
            jsStartsWith trimmed "protected") && jsEndsWith trimmed "\x7b")) &&
          !jsEndsWith trimmed "\x7b" then lvl2 + 1 else lvl2
      javaLoop rest (formatted ++ [newLine]) lvl3

def javaFormatRun (code : String) : List String × Int :=
  javaLoop ((splitNLChars (javaPreprocess code)).map (fun l => (⟨l⟩ : String))) [] 0

/-- `JavaConverter.formatCode`. -/
def javaFormatCode (code : String) : String :=
  if code = "" then "" else finalizeOutput (joinNL (javaFormatRun code).1)

lemma kotlinLoop_level_nonneg : ∀ (lines acc : List String) (lvl : Int),
    0 ≤ lvl → 0 ≤ (kotlinLoop lines acc lvl).2 := by
  intro lines
  induction lines with
  | nil => intro acc lvl h; simpa [kotlinLoop] using h
  | cons line rest ih =>
    intro acc lvl h
    rw [kotlinLoop]
    have hmax := le_max_left 0 (lvl - 1)
    split_ifs <;> apply ih <;> omega

lemma javaLoop_level_nonneg : ∀ (lines acc : List String) (lvl : Int),
    0 ≤ lvl → 0 ≤ (javaLoop lines acc lvl).2 := by
  intro lines
  induction lines with
  | nil => intro acc lvl h; simpa [javaLoop] using h
  | cons line rest ih =>
    intro acc lvl h
    rw [javaLoop]
    have hmax := le_max_left 0 (lvl - 1)
    split_ifs <;> apply ih <;> omega

lemma kotlinLoop_lines_shape : ∀ (lines acc : List String) (lvl : Int),
    ∀ l ∈ (kotlinLoop lines acc lvl).1, l ∈ acc ∨ l = "" ∨
      ∃ (k : Nat) (t : String), l = repeatStr "    " k ++ t := by
  intro lines
  induction lines with
  | nil =>
    intro acc lvl l hl
    exact Or.inl (by simpa [kotlinLoop] using hl)
  | cons line rest ih =>
    intro acc lvl l hl
    rw [kotlinLoop] at hl
    split_ifs at hl <;>
      (rcases ih _ _ l hl with hmem | h' | h'
       · first
           | exact Or.inl hmem
           | (rcases List.mem_append.mp hmem with h | h
              · exact Or.inl h
              · simp at h
                first
                  | exact Or.inr (Or.inl h)
                  | exact Or.inr (Or.inr ⟨_, _, h⟩))
       · exact Or.inr (Or.inl h')
       · exact Or.inr (Or.inr h'))

lemma javaLoop_lines_shape : ∀ (lines acc : List String) (lvl : Int),
    ∀ l ∈ (javaLoop lines acc lvl).1, l ∈ acc ∨ l = "" ∨
      ∃ (k : Nat) (t : String), l = repeatStr "    " k ++ t := by
  intro lines
  induction lines with
  | nil =>
    intro acc lvl l hl
    exact Or.inl (by simpa [javaLoop] using hl)
  | cons line rest ih =>
    intro acc lvl l hl
    rw [javaLoop] at hl
    split_ifs at hl <;>
      (rcases ih _ _ l hl with hmem | h' | h'
       · first
           | exact Or.inl hmem
           | (rcases List.mem_append.mp hmem with h | h
              · exact Or.inl h
              · simp at h
                first
                  | exact Or.inr (Or.inl h)
                  | exact Or.inr (Or.inr ⟨_, _, h⟩))
       · exact Or.inr (Or.inl h')
       · exact Or.inr (Or.inr h'))

/-! ## JavaScript `formatCode` (javascript.js)

javascript.js declares `formatCode` twice; in a JS class the second member
definition wins, so the effective formatter is the comment-filtering one
that ends in `.trim()`. -/

/-- The keep-predicate of the `filter` in the effective
`JavaScriptConverter.formatCode` (`line`, `index`, `array`). -/
def jsKeepLine (arr : List String) (i : Nat) (line : String) : Bool :=
  let trimmed := jsTrim line
  let prevLine := if i > 0 then jsTrim (arr.getD (i - 1) "") else ""
  if jsStartsWith trimmed "//" then
    if trimmed.length < 10 && !containsSub trimmed "TODO" && !containsSub trimmed "FIXME" then
      false
    else if jsStartsWith prevLine "//" && trimmed = prevLine then false
    else true
  else true

/-- The effective `JavaScriptConverter.formatCode` (second definition):
trim line ends, drop short/duplicated comment lines, collapse blank runs,
then `trim()` the whole text. -/
def jsFormatCode (code : String) : String :=
  if code = "" then "" else
    let mapped := (splitNL code).map jsTrimEnd
    let kept := (mapped.enum.filter (fun p => jsKeepLine mapped p.1 p.2)).map (·.2)
    jsTrim ⟨collapse3 (joinNL kept).data⟩

/-! ## Syntax validation (`validateSyntax`) -/

/-- `BaseLanguageConverter.validateSyntax`: the list of warnings it adds.
For more than 5000 lines it adds only the skip warning and returns; otherwise
it runs the bracket-count and `undefined` checks. -/
def baseValidateSyntax (langName code : String) : List Warning :=
  let lines := splitNL code
  if lines.length > 5000 then
    [⟨"Large file detected - some validations skipped for performance", none, langName⟩]
  else
    let openBrackets := code.data.countP (fun c => c = '(' || c = '[' || c = '{')
    let closeBrackets := code.data.countP (fun c => c = ')' || c = ']' || c = '}')
    (if openBrackets ≠ closeBrackets then
      [⟨"Mismatched brackets detected", none, langName⟩] else []) ++
    (if containsSub code "undefined" then
      [⟨"Potential undefined values detected", none, langName⟩] else [])

/-- One step of `JavaConverter.validateSyntax`'s brace-count loop
(`braceCount += line.match(/\{/g).length; braceCount -= ...`). -/
def javaBraceStep (acc : Int) (l : String) : Int :=
  acc + (countChar '{' (jsTrim l) : Int) - (countChar '}' (jsTrim l) : Int)

/-- `JavaConverter.validateSyntax`: `super.validateSyntax(code)` followed by
the Java-specific class-presence and brace-balance checks (these run even
when the base pass was skipped for size). -/
def javaValidateSyntax (code : String) : List Warning :=
  baseValidateSyntax "Java" code ++
    (let lines := splitNL code
     let hasClass := lines.any (fun l => containsSub (jsTrim l) "class ")
     let braceCount : Int := lines.foldl javaBraceStep 0
     (if !hasClass then
       [⟨"Java code should contain at least one class", none, "Java"⟩] else []) ++
     (if braceCount ≠ 0 then
       [⟨"Unmatched braces detected", none, "Java"⟩] else []))

lemma splitNLChars_replicate_nl (n : Nat) :
    splitNLChars (List.replicate n '\n') = List.replicate (n + 1) [] := by
  induction n with
  | zero => rfl
  | succ n ih => simp [splitNLChars, List.replicate_succ, ih]

/-- A 5001-line input: 5000 newline characters. -/
def bigNL : String := ⟨List.replicate 5000 '\n'⟩

lemma splitNL_bigNL : splitNL bigNL = List.replicate 5001 "" := by
  show (splitNLChars (List.replicate 5000 '\n')).map _ = _
  rw [splitNLChars_replicate_nl, List.map_replicate]

/-- C8 (amended): for inputs of more than 5000 lines, the base
`validateSyntax` skips the bracket/`undefined` sub-passes and adds exactly
the one skip warning; subclass validators, however, still run their own
checks afterwards (see the counterexample). -/
theorem baseValidateSyntax_large_file_single_warning (langName code : String)
    (h : (splitNL code).length > 5000) :
    baseValidateSyntax langName code =
      [⟨"Large file detected - some validations skipped for performance", none, langName⟩] := by
  simp only [baseValidateSyntax]
  rw [if_pos (by exact_mod_cast h)]

/-- C8 witness: the base validator on the concrete 5001-line input. -/
theorem baseValidateSyntax_large_file_single_warning_witness :
    baseValidateSyntax "Java" bigNL =
      [⟨"Large file detected - some validations skipped for performance", none, "Java"⟩] :=
  baseValidateSyntax_large_file_single_warning "Java" bigNL
    (by rw [splitNL_bigNL, List.length_replicate]; norm_num)

lemma any_replicate_empty_false (p : String → Bool) (h : p "" = false) (n : Nat) :
    (List.replicate n "").any p = false := by
  induction n with
  | zero => rfl
  | succ n ih => simp [List.replicate_succ, h, ih]

lemma javaBraceStep_foldl_empty (n : Nat) (acc : Int) :
    List.foldl javaBraceStep acc (List.replicate n "") = acc := by
  induction n generalizing acc with
  | zero => rfl
  | succ n ih =>
    rw [List.replicate_succ, List.foldl_cons]
    have hstep : javaBraceStep acc "" = acc := by
      have h1 : countChar '{' (jsTrim "") = 0 := by decide
      have h2 : countChar '}' (jsTrim "") = 0 := by decide
      rw [javaBraceStep, h1, h2]; push_cast; ring
    rw [hstep, ih]

/-- C8 counterexample: on the same 5001-line input the Java converter's
`validateSyntax` emits a second warning after the skip warning, refuting
"produces no other validation warnings". -/
theorem javaValidateSyntax_large_file_two_warnings :
    javaValidateSyntax bigNL =
      [⟨"Large file detected - some validations skipped for performance", none, "Java"⟩,
       ⟨"Java code should contain at least one class", none, "Java"⟩] ∧
    (javaValidateSyntax bigNL).length ≠ 1 := by
  have hbase : baseValidateSyntax "Java" bigNL = _ :=
    baseValidateSyntax_large_file_single_warning_witness
  have hany : (List.replicate 5001 "").any (fun l => containsSub (jsTrim l) "class ") = false :=
    any_replicate_empty_false _ (by decide) 5001
  have heq : javaValidateSyntax bigNL =
      [⟨"Large file detected - some validations skipped for performance", none, "Java"⟩,
       ⟨"Java code should contain at least one class", none, "Java"⟩] := by
    simp only [javaValidateSyntax, hbase, splitNL_bigNL, hany,
      javaBraceStep_foldl_empty]
    norm_num
  exact ⟨heq, by rw [heq]; norm_num⟩

/-! ## C6: indentation levels in `formatCode` -/

/-- C6 (amended): the Kotlin and Java `formatCode` line loops keep the
tracked indentation level non-negative whenever it starts non-negative
(closing braces clamp it at zero), and every emitted output line is either a
carried-over line, an empty line, or text indented by a (non-negative)
number of four-space units.  The second half of the original claim — that
brace-balanced input brings the level back to zero — is refuted by the
counterexample. -/
theorem formatCode_nonnegative_indent (lines acc : List String) (lvl : Int)
    (h : 0 ≤ lvl) :
    (0 ≤ (kotlinLoop lines acc lvl).2 ∧
     ∀ l ∈ (kotlinLoop lines acc lvl).1, l ∈ acc ∨ l = "" ∨
       ∃ (k : Nat) (t : String), l = repeatStr "    " k ++ t) ∧
    (0 ≤ (javaLoop lines acc lvl).2 ∧
     ∀ l ∈ (javaLoop lines acc lvl).1, l ∈ acc ∨ l = "" ∨
       ∃ (k : Nat) (t : String), l = repeatStr "    " k ++ t) :=
  ⟨⟨kotlinLoop_level_nonneg lines acc lvl h, kotlinLoop_lines_shape lines acc lvl⟩,
   ⟨javaLoop_level_nonneg lines acc lvl h, javaLoop_lines_shape lines acc lvl⟩⟩

/-- C6 witness: the loops on the concrete line list `["}"; "x"]` from level
0. -/
theorem formatCode_nonnegative_indent_witness :
    (0 ≤ (kotlinLoop ["\x7d", "x"] [] 0).2 ∧
     ∀ l ∈ (kotlinLoop ["\x7d", "x"] [] 0).1, l ∈ ([] : List String) ∨ l = "" ∨
       ∃ (k : Nat) (t : String), l = repeatStr "    " k ++ t) ∧
    (0 ≤ (javaLoop ["\x7d", "x"] [] 0).2 ∧
     ∀ l ∈ (javaLoop ["\x7d", "x"] [] 0).1, l ∈ ([] : List String) ∨ l = "" ∨
       ∃ (k : Nat) (t : String), l = repeatStr "    " k ++ t) :=
  formatCode_nonnegative_indent ["\x7d", "x"] [] 0 (by norm_num)

/-- C6 counterexample: the input `"\x7b\nx \x7d\nend"` has balanced braces, yet
after the last line the Kotlin `formatCode` loop's tracked indentation level
is 1, not 0 (the closing brace is embedded at the end of a line with other
text and is not counted). -/
theorem kotlin_balanced_braces_level_not_zero :
    countChar '{' "\x7b\nx \x7d\nend" = countChar '}' "\x7b\nx \x7d\nend" ∧
    (kotlinFormatRun "\x7b\nx \x7d\nend").2 = 1 := by
  constructor
  · decide
  · simp [kotlinFormatRun, kotlinPreprocess, kotlinLoop, repSemiSemi, insSemiNL,
      insBraceOpen, insBraceClose, kwWsCollapse, parenBraceFix, followedByNL,
      kotlinKws, splitNLChars, jsTrim, trimL, trimEndL, dropLeadingWs, jsIsSpace,
      isPrefixL, jsStartsWith, jsEndsWith, repeatStr]

/-! ## C7: blank-line and trailing-newline normalization -/

/-- C7 (amended): for non-empty input the Kotlin converter's `formatCode`
output contains no run of three newlines and — except when everything
normalizes away to the bare `"\n"` — does not start with a newline and ends
with exactly one; the JavaScript converter's `formatCode`, however, `trim()`s
its result and ends with no trailing newline (see the counterexample). -/
theorem kotlinFormatCode_blank_line_normalization (code : String)
    (h : code ≠ "") :
    hasTriple (kotlinFormatCode code).data = false ∧
    (kotlinFormatCode code = "\n" ∨
      (jsStartsWith (kotlinFormatCode code) "\n" = false ∧
       jsEndsWith (kotlinFormatCode code) "\n" = true ∧
       jsEndsWith (kotlinFormatCode code) "\n\n" = false)) := by
  unfold kotlinFormatCode
  rw [if_neg h]
  exact finalizeOutput_props _

/-- C7 witness: the amended statement at the input `"x"`. -/
theorem kotlinFormatCode_blank_line_normalization_witness :
    hasTriple (kotlinFormatCode "x").data = false ∧
    (kotlinFormatCode "x" = "\n" ∨
      (jsStartsWith (kotlinFormatCode "x") "\n" = false ∧
       jsEndsWith (kotlinFormatCode "x") "\n" = true ∧
       jsEndsWith (kotlinFormatCode "x") "\n\n" = false)) :=
  kotlinFormatCode_blank_line_normalization "x" (by decide)

/-- C7 counterexample: the JavaScript converter's effective `formatCode`
returns `"x"` for input `"x"` — no trailing newline at all. -/
theorem jsFormatCode_no_trailing_newline :
    jsFormatCode "x" = "x" ∧ jsEndsWith (jsFormatCode "x") "\n" = false := by
  constructor <;> decide

/-! ## Trim algebra (for the idempotence analysis of C10) -/

lemma dropLeadingWs_eq (l : List Char) : dropLeadingWs l = l.dropWhile jsIsSpace := by
  induction l with
  | nil => rfl
  | cons c cs ih =>
    by_cases h : jsIsSpace c = true <;>
      simp [dropLeadingWs, List.dropWhile_cons, h, ih]

lemma dropLeadingWs_head (l : List Char) :
    ∀ a, (dropLeadingWs l).head? = some a → jsIsSpace a = false := by
  rw [dropLeadingWs_eq]; exact head?_dropWhile_ne _ l

lemma dropLeadingWs_fix {l : List Char}
    (h : ∀ a, l.head? = some a → jsIsSpace a = false) : dropLeadingWs l = l := by
  cases l with
  | nil => rfl
  | cons c cs =>
    rw [dropLeadingWs, if_neg]
    simp [h c rfl]

lemma dropLeadingWs_idem (l : List Char) :
    dropLeadingWs (dropLeadingWs l) = dropLeadingWs l :=
  dropLeadingWs_fix (dropLeadingWs_head l)

lemma trimEndL_idem (l : List Char) : trimEndL (trimEndL l) = trimEndL l := by
  unfold trimEndL
  rw [List.reverse_reverse, dropLeadingWs_idem]

lemma trimEndL_getLast (l : List Char) :
    ∀ a, (trimEndL l).getLast? = some a → jsIsSpace a = false := by
  intro a ha
  unfold trimEndL at ha
  rw [List.getLast?_reverse] at ha
  exact dropLeadingWs_head _ a ha

lemma trimEndL_fix {l : List Char}
    (h : ∀ a, l.getLast? = some a → jsIsSpace a = false) : trimEndL l = l := by
  unfold trimEndL
  rw [dropLeadingWs_fix, List.reverse_reverse]
  intro a ha
  rw [List.head?_reverse] at ha
  exact h a ha

lemma trimEndL_prefix (l : List Char) : trimEndL l <+: l := by
  unfold trimEndL
  rw [dropLeadingWs_eq]
  exact List.reverse_suffix.mp (by simpa using List.dropWhile_suffix (l := l.reverse) jsIsSpace)

lemma head?_of_prefix {l₁ l₂ : List Char} (h : l₁ <+: l₂) (hne : l₁ ≠ []) :
    l₂.head? = l₁.head? := by
  obtain ⟨r, rfl⟩ := h
  cases l₁ with
  | nil => exact absurd rfl hne
  | cons a t => rfl

lemma trimL_head (l : List Char) :
    ∀ a, (trimL l).head? = some a → jsIsSpace a = false := by
  intro a ha
  have hne : trimL l ≠ [] := by
    intro hnil; rw [hnil] at ha; exact Option.noConfusion ha
  have hpre : trimL l <+: dropLeadingWs l := trimEndL_prefix _
  have := head?_of_prefix hpre hne
  exact dropLeadingWs_head l a (by rw [this]; exact ha)

lemma trimL_getLast (l : List Char) :
    ∀ a, (trimL l).getLast? = some a → jsIsSpace a = false :=
  trimEndL_getLast _

lemma trimL_idem (l : List Char) : trimL (trimL l) = trimL l := by
  show trimEndL (dropLeadingWs (trimL l)) = trimL l
  rw [dropLeadingWs_fix (trimL_head l)]
  exact trimEndL_fix (trimL_getLast l)

lemma trimL_infix_self (l : List Char) : trimL l <:+: l := by
  have h1 : trimL l <+: dropLeadingWs l := trimEndL_prefix _
  have h2 : dropLeadingWs l <:+ l := by
    rw [dropLeadingWs_eq]; exact List.dropWhile_suffix _
  exact h1.isInfix.trans h2.isInfix

/-! ## Membership subset lemmas -/

lemma mem_of_dropLeadingWs {a : Char} {l : List Char}
    (h : a ∈ dropLeadingWs l) : a ∈ l := by
  rw [dropLeadingWs_eq] at h
  exact ((List.dropWhile_suffix jsIsSpace).sublist).mem h

lemma mem_of_trimEndL {a : Char} {l : List Char} (h : a ∈ trimEndL l) : a ∈ l := by
  unfold trimEndL at h
  rw [List.mem_reverse] at h
  have := mem_of_dropLeadingWs h
  rwa [List.mem_reverse] at this

lemma mem_of_trimL {a : Char} {l : List Char} (h : a ∈ trimL l) : a ∈ l :=
  mem_of_dropLeadingWs (mem_of_trimEndL h)

lemma mem_of_emitNL {a : Char} {k : Nat} (h : a ∈ emitNL k) : a = '\n' := by
  unfold emitNL at h
  split at h
  · simp at h; exact h
  · exact List.eq_of_mem_replicate h

lemma mem_of_collapse3Go {a : Char} :
    ∀ (l : List Char) (k : Nat), a ∈ collapse3Go k l → a = '\n' ∨ a ∈ l := by
  intro l
  induction l with
  | nil => intro k h; exact Or.inl (mem_of_emitNL h)
  | cons c cs ih =>
    intro k h
    rw [collapse3Go] at h
    split_ifs at h with hc
    · rcases ih (k + 1) h with h' | h'
      · exact Or.inl h'
      · exact Or.inr (List.mem_cons_of_mem _ h')
    · rcases List.mem_append.mp h with h' | h'
      · exact Or.inl (mem_of_emitNL h')
      · rcases List.mem_cons.mp h' with h'' | h''
        · exact Or.inr (h'' ▸ List.mem_cons_self _ _)
        · rcases ih 0 h'' with h3 | h3
          · exact Or.inl h3
          · exact Or.inr (List.mem_cons_of_mem _ h3)

lemma mem_of_splitNLChars {a : Char} :
    ∀ (l : List Char) (line : List Char),
      line ∈ splitNLChars l → a ∈ line → a ∈ l := by
  intro l
  induction l with
  | nil =>
    intro line hline ha
    simp [splitNLChars] at hline
    subst hline
    exact absurd ha (List.not_mem_nil a)
  | cons c cs ih =>
    intro line hline ha
    rw [splitNLChars] at hline
    split_ifs at hline with hc
    · rcases List.mem_cons.mp hline with h | h
      · subst h; exact absurd ha (List.not_mem_nil a)
      · exact List.mem_cons_of_mem _ (ih line h ha)
    · rcases hsp : splitNLChars cs with _ | ⟨h0, t⟩
      · exact absurd hsp (by
          cases cs <;> simp [splitNLChars] <;> split_ifs <;>
            first
              | simp
              | (rename_i hcs; cases hcs2 : splitNLChars (by assumption) <;> simp))
      · rw [hsp] at hline
        rcases List.mem_cons.mp hline with h | h
        · subst h
          rcases List.mem_cons.mp ha with h' | h'
          · exact h' ▸ List.mem_cons_self _ _
          · refine List.mem_cons_of_mem _ (ih h0 ?_ h')
            rw [hsp]; exact List.mem_cons_self _ _
        · exact List.mem_cons_of_mem _ (ih line (by rw [hsp]; exact List.mem_cons_of_mem _ h) ha)

lemma mem_of_joinNLChars {a : Char} :
    ∀ (ls : List (List Char)), a ∈ joinNLChars ls → a = '\n' ∨ ∃ x ∈ ls, a ∈ x := by
  intro ls
  induction ls with
  | nil => intro h; exact absurd h (List.not_mem_nil a)
  | cons x rest ih =>
    intro h
    cases rest with
    | nil =>
      right
      exact ⟨x, List.mem_cons_self _ _, h⟩
    | cons y rest' =>
      have hj : joinNLChars (x :: y :: rest') = x ++ '\n' :: joinNLChars (y :: rest') := rfl
      rw [hj] at h
      rcases List.mem_append.mp h with h' | h'
      · exact Or.inr ⟨x, List.mem_cons_self _ _, h'⟩
      · rcases List.mem_cons.mp h' with h'' | h''
        · exact Or.inl h''
        · rcases ih h'' with h3 | ⟨z, hz, ha⟩
          · exact Or.inl h3
          · exact Or.inr ⟨z, List.mem_cons_of_mem _ hz, ha⟩

/-! ## Split/join structure lemmas -/

lemma splitNLChars_ne_nil (l : List Char) : splitNLChars l ≠ [] := by
  cases l with
  | nil => simp [splitNLChars]
  | cons c cs =>
    rw [splitNLChars]
    split_ifs
    · simp
    · cases hsp : splitNLChars cs <;> simp

lemma join_split_id : ∀ (l : List Char), joinNLChars (splitNLChars l) = l := by
  intro l
  induction l with
  | nil => rfl
  | cons c cs ih =>
    rw [splitNLChars]
    split_ifs with hc
    · obtain ⟨h0, t, hsp⟩ : ∃ h0 t, splitNLChars cs = h0 :: t := by
        cases hsp : splitNLChars cs with
        | nil => exact absurd hsp (splitNLChars_ne_nil cs)
        | cons a b => exact ⟨a, b, rfl⟩
      rw [hsp]
      have : joinNLChars ([] :: h0 :: t) = [] ++ '\n' :: joinNLChars (h0 :: t) := rfl
      rw [this]
      rw [hsp] at ih
      simp [ih, hc]
    · cases hsp : splitNLChars cs with
      | nil => exact absurd hsp (splitNLChars_ne_nil cs)
      | cons h0 t =>
        rw [hsp] at ih
        cases t with
        | nil =>
          show joinNLChars [c :: h0] = c :: cs
          show c :: h0 = c :: cs
          have : joinNLChars [h0] = h0 := rfl
          rw [this] at ih
          rw [ih]
        | cons t0 t' =>
          show joinNLChars ((c :: h0) :: t0 :: t') = c :: cs
          have h1 : joinNLChars ((c :: h0) :: t0 :: t') =
              (c :: h0) ++ '\n' :: joinNLChars (t0 :: t') := rfl
          have h2 : joinNLChars (h0 :: t0 :: t') =
              h0 ++ '\n' :: joinNLChars (t0 :: t') := rfl
          rw [h2] at ih
          rw [h1, ← ih]
          simp

lemma splitNLChars_nl_free :
    ∀ (l : List Char), ∀ line ∈ splitNLChars l, '\n' ∉ line := by
  intro l
  induction l with
  | nil =>
    intro line hline
    simp [splitNLChars] at hline
    simp [hline]
  | cons c cs ih =>
    intro line hline
    rw [splitNLChars] at hline
    split_ifs at hline with hc
    · rcases List.mem_cons.mp hline with h | h
      · simp [h]
      · exact ih line h
    · cases hsp : splitNLChars cs with
      | nil => exact absurd hsp (splitNLChars_ne_nil cs)
      | cons h0 t =>
        rw [hsp] at hline
        rcases List.mem_cons.mp hline with h | h
        · subst h
          intro hmem
          rcases List.mem_cons.mp hmem with h' | h'
          · exact hc h'.symm
          · exact ih h0 (by rw [hsp]; exact List.mem_cons_self _ _) h'
        · exact ih line (by rw [hsp]; exact List.mem_cons_of_mem _ h)

/-- The head line of `split('\n')`: either the whole (newline-free) input,
or the input's prefix up to its first newline. -/
lemma splitNLChars_head_structure :
    ∀ (cs : List Char), ∃ h0 t, splitNLChars cs = h0 :: t ∧
      (('\n' ∉ cs ∧ cs = h0) ∨ ∃ rest, cs = h0 ++ '\n' :: rest) := by
  intro cs
  induction cs with
  | nil => exact ⟨[], [], rfl, Or.inl ⟨by simp, rfl⟩⟩
  | cons c cs' ih =>
    by_cases hc : c = '\n'
    · refine ⟨[], splitNLChars cs', by rw [splitNLChars, if_pos hc], ?_⟩
      exact Or.inr ⟨cs', by rw [hc]; rfl⟩
    · obtain ⟨h0, t, hsp, hcase⟩ := ih
      refine ⟨c :: h0, t, ?_, ?_⟩
      · rw [splitNLChars, if_neg hc, hsp]
      · rcases hcase with ⟨hfree, rfl⟩ | ⟨rest, hrest⟩
        · refine Or.inl ⟨?_, rfl⟩
          simp only [List.mem_cons, not_or]
          exact ⟨fun h => hc h.symm, hfree⟩
        · exact Or.inr ⟨rest, by rw [hrest]; rfl⟩

/-! ## No whitespace before a newline (`Chain'` formulation) -/

/-- The pair `a` directly before `b` is fine: `a` is not a non-newline
whitespace character sitting immediately before a newline. -/
def goodPair (a b : Char) : Prop :=
  ¬(jsIsSpace a = true ∧ a ≠ '\n' ∧ b = '\n')

/-- No non-newline whitespace immediately precedes a newline anywhere. -/
def NoWsNL (l : List Char) : Prop := List.Chain' goodPair l

lemma noWsNL_of_nl_free {x : List Char} (h : '\n' ∉ x) : NoWsNL x := by
  induction x with
  | nil => exact List.chain'_nil
  | cons a x' ih =>
    cases x' with
    | nil => exact List.chain'_singleton a
    | cons b x'' =>
      refine List.chain'_cons.mpr ⟨?_, ih (fun hm => h (List.mem_cons_of_mem _ hm))⟩
      intro ⟨_, _, hb⟩
      exact h (by rw [← hb] at *; exact List.mem_cons_of_mem _ (List.mem_cons_self _ _))

lemma noWsNL_all_nl {x : List Char} (h : ∀ a ∈ x, a = '\n') : NoWsNL x := by
  induction x with
  | nil => exact List.chain'_nil
  | cons a x' ih =>
    cases x' with
    | nil => exact List.chain'_singleton a
    | cons b x'' =>
      refine List.chain'_cons.mpr ⟨?_, ih (fun c hc => h c (List.mem_cons_of_mem _ hc))⟩
      intro ⟨_, ha, _⟩
      exact ha (h a (List.mem_cons_self _ _))

lemma stable_getLast_not_ws {x : List Char} (hst : trimEndL x = x) :
    ∀ a, x.getLast? = some a → jsIsSpace a = false := by
  intro a ha
  exact trimEndL_getLast x a (by rw [hst]; exact ha)

/-- Joining trim-end-stable, newline-free lines yields text in which no
non-newline whitespace precedes a newline. -/
lemma noWsNL_joinNLChars :
    ∀ (ls : List (List Char)), (∀ x ∈ ls, trimEndL x = x) →
      (∀ x ∈ ls, '\n' ∉ x) → NoWsNL (joinNLChars ls) := by
  intro ls
  induction ls with
  | nil => intro _ _; exact List.chain'_nil
  | cons x rest ih =>
    intro hst hfree
    cases rest with
    | nil => exact noWsNL_of_nl_free (hfree x (List.mem_cons_self _ _))
    | cons y rest' =>
      have hj : joinNLChars (x :: y :: rest') = x ++ '\n' :: joinNLChars (y :: rest') := rfl
      rw [NoWsNL, hj, List.chain'_append]
      refine ⟨noWsNL_of_nl_free (hfree x (List.mem_cons_self _ _)), ?_, ?_⟩
      · rw [List.chain'_cons']
        refine ⟨?_, ih (fun z hz => hst z (List.mem_cons_of_mem _ hz))
          (fun z hz => hfree z (List.mem_cons_of_mem _ hz))⟩
        intro b _
        intro ⟨_, hne, _⟩
        exact hne rfl
      · intro a ha b hb
        simp only [List.head?_cons, Option.mem_def, Option.some.injEq] at hb
        subst hb
        intro ⟨hws, _, _⟩
        have := stable_getLast_not_ws (hst x (List.mem_cons_self _ _)) a
          (by simpa using ha)
        simp [this] at hws

lemma head?_collapse3Go_nl {cs : List Char}
    (h : (collapse3Go 0 cs).head? = some '\n') : cs.head? = some '\n' := by
  cases cs with
  | nil => simp [collapse3Go, emitNL] at h
  | cons d cs' =>
    by_cases hd : d = '\n'
    · rw [hd]; rfl
    · rw [collapse3Go, if_neg hd] at h
      simp [emitNL] at h
      exact absurd h hd

lemma noWsNL_emitNL (k : Nat) : NoWsNL (emitNL k) :=
  noWsNL_all_nl (fun a ha => mem_of_emitNL ha)

lemma mem_of_getLast?' : ∀ {l : List Char} {a : Char}, l.getLast? = some a → a ∈ l
  | [_], _, h => by simp at h; simp [h]
  | b :: c :: l', a, h => by
    rw [List.getLast?_cons_cons] at h
    exact List.mem_cons_of_mem _ (mem_of_getLast?' h)

lemma getLast?_emitNL {k : Nat} {a : Char} (h : (emitNL k).getLast? = some a) :
    a = '\n' :=
  mem_of_emitNL (mem_of_getLast?' h)

/-- `collapse3` preserves the no-whitespace-before-newline property. -/
lemma noWsNL_collapse3Go :
    ∀ (l : List Char), NoWsNL l → ∀ k, NoWsNL (collapse3Go k l) := by
  intro l
  induction l with
  | nil => intro _ k; exact noWsNL_emitNL k
  | cons c cs ih =>
    intro hl k
    rw [collapse3Go]
    split_ifs with hc
    · exact ih hl.tail (k + 1)
    · rw [NoWsNL, List.chain'_append]
      refine ⟨noWsNL_emitNL k, ?_, ?_⟩
      · rw [List.chain'_cons']
        refine ⟨?_, ih hl.tail 0⟩
        intro b hb
        intro ⟨hws, hne, hbnl⟩
        have hhd : cs.head? = some '\n' := by
          apply head?_collapse3Go_nl
          rw [← hbnl]
          simpa using hb
        cases cs with
        | nil => simp at hhd
        | cons d cs' =>
          simp at hhd
          subst hhd
          have := List.chain'_cons.mp hl
          exact this.1 ⟨hws, hne, rfl⟩
      · intro a ha b _
        have : a = '\n' := getLast?_emitNL (by simpa using ha)
        intro ⟨_, hne, _⟩
        exact hne this

/-! ## `collapse3` is the identity on triple-free text -/

lemma le_two_of_hasTriple_replicate {k : Nat} {x : List Char}
    (h : hasTriple (List.replicate k '\n' ++ x) = false) : k ≤ 2 := by
  by_contra h3
  obtain ⟨k', rfl⟩ : ∃ k', k = k' + 3 := ⟨k - 3, by omega⟩
  simp [List.replicate_succ, hasTriple] at h

lemma collapse3Go_id :
    ∀ (l : List Char) (k : Nat),
      hasTriple (List.replicate k '\n' ++ l) = false →
      collapse3Go k l = List.replicate k '\n' ++ l := by
  intro l
  induction l with
  | nil =>
    intro k h
    have hk := le_two_of_hasTriple_replicate h
    rw [collapse3Go, emitNL, if_neg (by omega)]
    simp
  | cons c cs ih =>
    intro k h
    rw [collapse3Go]
    split_ifs with hc
    · subst hc
      have hrw : List.replicate k '\n' ++ '\n' :: cs = List.replicate (k + 1) '\n' ++ cs := by
        rw [List.replicate_succ']
        simp
      rw [hrw] at h
      rw [ih (k + 1) h, hrw]
    · have hk := le_two_of_hasTriple_replicate h
      have hcs : hasTriple cs = false := by
        have : List.replicate k '\n' ++ c :: cs = (List.replicate k '\n' ++ [c]) ++ cs := by
          simp
        rw [this] at h
        exact hasTriple_of_suffix _ _ h
      rw [emitNL, if_neg (by omega), ih 0 (by simpa using hcs)]
      simp

lemma collapse3_id {l : List Char} (h : hasTriple l = false) : collapse3 l = l := by
  have := collapse3Go_id l 0 (by simpa using h)
  simpa [collapse3] using this

/-! ## Splitting, per-line trim-end, and rejoining is the identity on
normalized text -/

lemma dropLeadingWs_append_of_exists {x : List Char}
    (hx : ∃ d ∈ x, jsIsSpace d = false) (y : List Char) :
    dropLeadingWs (x ++ y) = dropLeadingWs x ++ y := by
  induction x with
  | nil => obtain ⟨d, hd, _⟩ := hx; exact absurd hd (List.not_mem_nil d)
  | cons c x' ih =>
    by_cases hc : jsIsSpace c = true
    · have hx' : ∃ d ∈ x', jsIsSpace d = false := by
        obtain ⟨d, hd, hdws⟩ := hx
        rcases List.mem_cons.mp hd with rfl | hd'
        · rw [hc] at hdws; exact absurd hdws (by simp)
        · exact ⟨d, hd', hdws⟩
      simp [dropLeadingWs, hc, ih hx']
    · simp [dropLeadingWs, hc]

lemma dropLeadingWs_append_all_ws {x : List Char}
    (hx : ∀ d ∈ x, jsIsSpace d = true) (y : List Char) :
    dropLeadingWs (x ++ y) = dropLeadingWs y := by
  induction x with
  | nil => rfl
  | cons c x' ih =>
    simp [dropLeadingWs, hx c (List.mem_cons_self _ _),
      ih (fun d hd => hx d (List.mem_cons_of_mem _ hd))]

/-- Under the good-pair invariant, `trimEnd` distributes over consing a
head character (the bad case, whitespace head with all-whitespace tail, is
excluded by the caller). -/
lemma trimEndL_cons_of {c : Char} {h0 : List Char}
    (hok : jsIsSpace c = false ∨ ∃ d ∈ h0, jsIsSpace d = false) :
    trimEndL (c :: h0) = c :: trimEndL h0 := by
  by_cases hh : ∃ d ∈ h0, jsIsSpace d = false
  · show (dropLeadingWs (c :: h0).reverse).reverse = _
    rw [List.reverse_cons, dropLeadingWs_append_of_exists
      (by obtain ⟨d, hd, hws⟩ := hh; exact ⟨d, List.mem_reverse.mpr hd, hws⟩)]
    simp [trimEndL]
  · have hall : ∀ d ∈ h0, jsIsSpace d = true := by
      intro d hd
      by_contra hws
      exact hh ⟨d, hd, by simpa using hws⟩
    have hc : jsIsSpace c = false := by
      rcases hok with h | h
      · exact h
      · exact absurd h hh
    have h1 : trimEndL h0 = [] := by
      show (dropLeadingWs h0.reverse).reverse = []
      rw [show h0.reverse = h0.reverse ++ [] by simp,
        dropLeadingWs_append_all_ws (fun d hd => hall d (by simpa using hd))]
      rfl
    show (dropLeadingWs (c :: h0).reverse).reverse = _
    rw [List.reverse_cons, dropLeadingWs_append_all_ws
      (fun d hd => hall d (by simpa using hd))]
    simp [dropLeadingWs, hc, h1]

lemma getLast?_of_tail {c : Char} {cs : List Char}
    (hlast : ∀ a, (c :: cs).getLast? = some a → jsIsSpace a = false) :
    ∀ a, cs.getLast? = some a → jsIsSpace a = false := by
  intro a ha
  apply hlast a
  cases cs with
  | nil => simp at ha
  | cons d cs' => rw [List.getLast?_cons_cons]; exact ha

/-- If no non-newline whitespace precedes a newline and the text does not
end in non-newline whitespace, then splitting into lines, trimming each
line's end and rejoining reproduces the text. -/
lemma join_map_trimEnd_split_id :
    ∀ (l : List Char), NoWsNL l →
      (∀ a, l.getLast? = some a → jsIsSpace a = false) →
      joinNLChars ((splitNLChars l).map trimEndL) = l := by
  intro l
  induction l with
  | nil => intro _ _; rfl
  | cons c cs ih =>
    intro hchain hlast
    have hcs : joinNLChars ((splitNLChars cs).map trimEndL) = cs :=
      ih hchain.tail (getLast?_of_tail hlast)
    by_cases hc : c = '\n'
    · subst hc
      rw [splitNLChars, if_pos rfl]
      obtain ⟨h0, t, hsp⟩ : ∃ h0 t, splitNLChars cs = h0 :: t := by
        cases hsp : splitNLChars cs with
        | nil => exact absurd hsp (splitNLChars_ne_nil cs)
        | cons a b => exact ⟨a, b, rfl⟩
      rw [hsp, List.map_cons, List.map_cons]
      have hj : joinNLChars (trimEndL [] :: trimEndL h0 :: t.map trimEndL) =
          trimEndL [] ++ '\n' :: joinNLChars (trimEndL h0 :: t.map trimEndL) := rfl
      rw [hj]
      rw [hsp, List.map_cons] at hcs
      rw [hcs]
      rfl
    · rw [splitNLChars, if_neg hc]
      obtain ⟨h0, t, hsp, hstruct⟩ := splitNLChars_head_structure cs
      rw [hsp, List.map_cons]
      -- the invariant rules out a whitespace `c` with an all-whitespace head line
      have hok : jsIsSpace c = false ∨ ∃ d ∈ h0, jsIsSpace d = false := by
        by_cases hh : ∃ d ∈ h0, jsIsSpace d = false
        · exact Or.inr hh
        · left
          have hall : ∀ d ∈ h0, jsIsSpace d = true := by
            intro d hd
            by_contra hws
            exact hh ⟨d, hd, by simpa using hws⟩
          rcases hstruct with ⟨hfree, hh0⟩ | ⟨rest, hrest⟩
          · -- cs itself is the (newline-free) head line h0
            cases hcs0 : cs with
            | nil => exact hlast c (by rw [hcs0]; simp)
            | cons e cs' =>
              exfalso
              obtain ⟨a, hlg⟩ : ∃ a, (e :: cs').getLast? = some a :=
                ⟨(e :: cs').getLast (by simp),
                  List.getLast?_eq_getLast_of_ne_nil (by simp)⟩
              have hmem : a ∈ cs := by rw [hcs0]; exact mem_of_getLast?' hlg
              have haws := hall a (by rw [← hh0]; exact hmem)
              have hclast : (c :: cs).getLast? = some a := by
                rw [hcs0, List.getLast?_cons_cons]; exact hlg
              have := hlast a hclast
              rw [this] at haws
              exact absurd haws (by simp)
          · -- cs = h0 ++ '\n' :: rest
            cases h0 with
            | nil =>
              -- the pair (c, '\n') is adjacent
              rw [hrest] at hchain
              have := (List.chain'_cons.mp hchain).1
              by_contra hws
              exact this ⟨by simpa using hws, hc, rfl⟩
            | cons e h0' =>
              -- the pair (last of the head line, '\n') is adjacent
              exfalso
              rw [hrest] at hchain
              have hch : List.Chain' goodPair ((c :: e :: h0') ++ '\n' :: rest) := hchain
              obtain ⟨-, -, hbound⟩ := List.chain'_append.mp hch
              obtain ⟨a, hlg⟩ : ∃ a, (e :: h0').getLast? = some a :=
                ⟨(e :: h0').getLast (by simp),
                  List.getLast?_eq_getLast_of_ne_nil (by simp)⟩
              have hmem : a ∈ e :: h0' := mem_of_getLast?' hlg
              have haws := hall a hmem
              have hanl : a ≠ '\n' := by
                intro hanl
                have := splitNLChars_nl_free cs (e :: h0')
                  (by rw [hsp]; exact List.mem_cons_self _ _)
                rw [hanl] at hmem
                exact this hmem
              apply hbound a (by rw [List.getLast?_cons_cons]; simpa using hlg)
                '\n' (by simp)
              exact ⟨haws, hanl, rfl⟩
      rw [trimEndL_cons_of hok]
      rw [hsp, List.map_cons] at hcs
      cases hmt : t.map trimEndL with
      | nil =>
        rw [hmt] at hcs
        have hone : joinNLChars [trimEndL h0] = trimEndL h0 := rfl
        rw [hone] at hcs
        show joinNLChars [c :: trimEndL h0] = c :: cs
        show c :: trimEndL h0 = c :: cs
        rw [hcs]
      | cons m0 mt =>
        rw [hmt] at hcs
        have h1 : joinNLChars ((c :: trimEndL h0) :: m0 :: mt) =
            (c :: trimEndL h0) ++ '\n' :: joinNLChars (m0 :: mt) := rfl
        have h2 : joinNLChars (trimEndL h0 :: m0 :: mt) =
            trimEndL h0 ++ '\n' :: joinNLChars (m0 :: mt) := rfl
        rw [h2] at hcs
        rw [h1, ← hcs]
        simp

/-! ## C10: idempotence of the JavaScript `formatCode` -/

lemma head_mem_of_isPrefixL {p : Char} {ps l : List Char}
    (h : isPrefixL (p :: ps) l = true) : p ∈ l := by
  cases l with
  | nil => simp [isPrefixL] at h
  | cons c cs =>
    have hpc : p = c := by
      by_contra hne
      simp [isPrefixL, hne] at h
    rw [hpc]
    exact List.mem_cons_self _ _

lemma startsWith_slash_mem {t : String} (h : jsStartsWith t "//" = true) :
    '/' ∈ t.data := by
  unfold jsStartsWith at h
  exact head_mem_of_isPrefixL h

lemma jsKeepLine_of_noSlash (arr : List String) (i : Nat) (line : String)
    (h : '/' ∉ line.data) : jsKeepLine arr i line = true := by
  have hsw : jsStartsWith (jsTrim line) "//" = false := by
    by_contra hq
    have hq' : jsStartsWith (jsTrim line) "//" = true := by simpa using hq
    exact h (mem_of_trimL (startsWith_slash_mem hq'))
  simp [jsKeepLine, hsw]

lemma filter_keepAll (arr : List String) (h : ∀ x ∈ arr, '/' ∉ x.data) :
    (arr.enum.filter (fun p => jsKeepLine arr p.1 p.2)).map (·.2) = arr := by
  have hf : arr.enum.filter (fun p => jsKeepLine arr p.1 p.2) = arr.enum := by
    apply List.filter_eq_self.mpr
    intro p hp
    apply jsKeepLine_of_noSlash
    apply h
    have := List.mem_map_of_mem Prod.snd hp
    rwa [List.enum_map_snd] at this
  rw [hf, List.enum_map_snd]

lemma lines_noSlash (s : String) (h : '/' ∉ s.data) :
    ∀ x ∈ (splitNL s).map jsTrimEnd, '/' ∉ x.data := by
  intro x hx hmem
  obtain ⟨y, hy, rfl⟩ := List.mem_map.mp hx
  obtain ⟨lc, hlc, rfl⟩ := List.mem_map.mp hy
  have h1 : '/' ∈ trimEndL lc := hmem
  exact h (mem_of_splitNLChars s.data lc hlc (mem_of_trimEndL h1))

/-- For non-empty, slash-free input, `jsFormatCode` is the char-level
trim-collapse-join-trimEnd-split pipeline (the comment filter keeps every
line). -/
lemma jsFormatCode_eq (s : String) (hs : s ≠ "")
    (h : ∀ x ∈ (splitNL s).map jsTrimEnd, '/' ∉ x.data) :
    jsFormatCode s =
      ⟨trimL (collapse3 (joinNLChars ((splitNLChars s.data).map trimEndL)))⟩ := by
  unfold jsFormatCode
  rw [if_neg hs]
  show jsTrim ⟨collapse3 (joinNL ((((splitNL s).map jsTrimEnd).enum.filter
      (fun p => jsKeepLine ((splitNL s).map jsTrimEnd) p.1 p.2)).map (·.2))).data⟩ = _
  rw [filter_keepAll _ h]
  have hjoin : (joinNL ((splitNL s).map jsTrimEnd)).data =
      joinNLChars ((splitNLChars s.data).map trimEndL) := by
    simp only [joinNL, splitNL, List.map_map]
    rfl
  rw [hjoin]
  rfl

lemma pipeline_props (ls : List (List Char))
    (h1 : ∀ x ∈ ls, trimEndL x = x) (h2 : ∀ x ∈ ls, '\n' ∉ x) :
    NoWsNL (trimL (collapse3 (joinNLChars ls))) ∧
    (∀ a, (trimL (collapse3 (joinNLChars ls))).getLast? = some a →
      jsIsSpace a = false) ∧
    hasTriple (trimL (collapse3 (joinNLChars ls))) = false ∧
    trimL (trimL (collapse3 (joinNLChars ls))) = trimL (collapse3 (joinNLChars ls)) := by
  have f3 : NoWsNL (joinNLChars ls) := noWsNL_joinNLChars ls h1 h2
  have f4 : NoWsNL (collapse3 (joinNLChars ls)) :=
    noWsNL_collapse3Go (joinNLChars ls) f3 0
  have f5 : NoWsNL (trimL (collapse3 (joinNLChars ls))) :=
    f4.infix (trimL_infix_self _)
  have f7 : hasTriple (collapse3 (joinNLChars ls)) = false :=
    collapse3Go_noTriple (joinNLChars ls) 0
  have f81 : hasTriple (dropLeadingWs (collapse3 (joinNLChars ls))) = false := by
    rw [dropLeadingWs_eq]
    obtain ⟨r, hr⟩ := List.dropWhile_suffix (l := collapse3 (joinNLChars ls)) jsIsSpace
    exact hasTriple_of_suffix r _ (by rw [hr]; exact f7)
  have f8 : hasTriple (trimL (collapse3 (joinNLChars ls))) = false := by
    obtain ⟨r, hr⟩ := trimEndL_prefix (dropLeadingWs (collapse3 (joinNLChars ls)))
    apply hasTriple_of_prefix _ r
    show hasTriple (trimEndL (dropLeadingWs (collapse3 (joinNLChars ls))) ++ r) = false
    rw [hr]
    exact f81
  exact ⟨f5, trimL_getLast _, f8, trimL_idem _⟩

/-- On text invariant under its own normalization, `jsFormatCode` is the
identity. -/
lemma jsFormatCode_fixpoint (Td : List Char)
    (f5 : NoWsNL Td) (f6 : ∀ a, Td.getLast? = some a → jsIsSpace a = false)
    (f8 : hasTriple Td = false) (f9 : '/' ∉ Td) (f10 : trimL Td = Td) :
    jsFormatCode ⟨Td⟩ = ⟨Td⟩ := by
  by_cases hTd0 : Td = []
  · rw [hTd0]; rfl
  · have hTne : (⟨Td⟩ : String) ≠ "" := by
      intro hq
      exact hTd0 (by simpa using congrArg String.data hq)
    rw [jsFormatCode_eq _ hTne (lines_noSlash _ (by simpa using f9))]
    show (⟨trimL (collapse3 (joinNLChars ((splitNLChars Td).map trimEndL)))⟩ : String) = _
    apply congrArg String.mk
    rw [join_map_trimEnd_split_id Td f5 f6, collapse3_id f8, f10]

/-- C10 (amended): `formatCode` is not idempotent for every target-language
converter — a second pass of the JavaScript converter's comment filter can
remove further lines (see the counterexample) — but on input containing no
`/` character (hence no comment lines) the JavaScript converter's
`formatCode` is idempotent. -/
theorem jsFormatCode_idempotent_on_slash_free (s : String) (h : '/' ∉ s.data) :
    jsFormatCode (jsFormatCode s) = jsFormatCode s := by
  by_cases hs : s = ""
  · rw [hs]; rfl
  · have hT := jsFormatCode_eq s hs (lines_noSlash s h)
    have h1 : ∀ x ∈ (splitNLChars s.data).map trimEndL, trimEndL x = x := by
      intro x hx
      obtain ⟨y, _, rfl⟩ := List.mem_map.mp hx
      exact trimEndL_idem y
    have h2 : ∀ x ∈ (splitNLChars s.data).map trimEndL, '\n' ∉ x := by
      intro x hx hm
      obtain ⟨y, hy, rfl⟩ := List.mem_map.mp hx
      exact splitNLChars_nl_free s.data y hy (mem_of_trimEndL hm)
    obtain ⟨f5, f6, f8, f10⟩ := pipeline_props _ h1 h2
    have f9 : '/' ∉ trimL (collapse3 (joinNLChars ((splitNLChars s.data).map trimEndL))) := by
      intro hm
      have hm1 := mem_of_trimL hm
      rcases mem_of_collapse3Go _ 0 hm1 with h' | h'
      · exact absurd h' (by decide)
      · rcases mem_of_joinNLChars _ h' with h'' | ⟨x, hx, hax⟩
        · exact absurd h'' (by decide)
        · obtain ⟨y, hy, rfl⟩ := List.mem_map.mp hx
          exact h (mem_of_splitNLChars s.data y hy (mem_of_trimEndL hax))
    rw [hT]
    exact jsFormatCode_fixpoint _ f5 f6 f8 f9 f10

/-- C10 witness: idempotence at the concrete slash-free input
`"a  \n\n\n\nb"`. -/
theorem jsFormatCode_idempotent_on_slash_free_witness :
    jsFormatCode (jsFormatCode "a  \n\n\n\nb") = jsFormatCode "a  \n\n\n\nb" :=
  jsFormatCode_idempotent_on_slash_free "a  \n\n\n\nb" (by decide)

/-- C10 counterexample: on three comment lines (long, short, long — the
short one is dropped on the first pass, making the two long ones adjacent)
a second `formatCode` removes another line, so
`formatCode ∘ formatCode ≠ formatCode`. -/
theorem jsFormatCode_not_idempotent :
    jsFormatCode (jsFormatCode "// aaaaaaaaaa\n// x\n// aaaaaaaaaa") ≠
      jsFormatCode "// aaaaaaaaaa\n// x\n// aaaaaaaaaa" ∧
    jsFormatCode "// aaaaaaaaaa\n// x\n// aaaaaaaaaa" =
      "// aaaaaaaaaa\n// aaaaaaaaaa" ∧
    jsFormatCode (jsFormatCode "// aaaaaaaaaa\n// x\n// aaaaaaaaaa") =
      "// aaaaaaaaaa" := by
  refine ⟨?_, ?_, ?_⟩ <;> decide

/-! ## Python converter (`python.js`)

`PythonConverter` overrides `parseToAST`: it converts the whole source to
JavaScript text with `convertPythonToJS` and wraps it in a single
`Expression` node.  Below, `convertPythonToJS` and its helpers are embedded
line by line from the source. -/

/-- `.replace(/\bkw\b/g, rep)` for an alphanumeric keyword `k0 :: kr`:
replace every occurrence of the keyword that is bounded by non-word
characters (or the ends of the string).  `prevWord` records whether the
character before the scan position is a word character. -/
def wordReplaceGo (k0 : Char) (kr rep : List Char) : Bool → List Char → List Char
  | _, [] => []
  | prevWord, c :: cs =>
    if !prevWord && isPrefixL (k0 :: kr) (c :: cs) &&
        (cs.drop kr.length).head?.all (fun d => !isWordChar d) then
      rep ++ wordReplaceGo k0 kr rep true (cs.drop kr.length)
    else c :: wordReplaceGo k0 kr rep (isWordChar c) cs
termination_by _ l => l.length
decreasing_by
  · have h1 := len_drop_le kr.length cs
    simp only [List.length_cons]
    omega
  · simp

/-- `.replace(/\bkw\b/g, rep)` on a string (identity for an empty
keyword, which does not occur in the source). -/
def wordReplace (kw rep s : String) : String :=
  match kw.data with
  | [] => s
  | k0 :: kr => ⟨wordReplaceGo k0 kr rep.data false s.data⟩

/-- `PythonConverter.convertPythonCondition`: the six word-bounded
replacements, in source order. -/
def convertPythonCondition (condition : String) : String :=
  wordReplace "None" "null" (wordReplace "False" "false" (wordReplace "True" "true"
    (wordReplace "not" "!" (wordReplace "or" "||" (wordReplace "and" "&&" condition)))))

/-- `PythonConverter.convertPythonExpression`. -/
def convertPythonExpression (expr : String) : String :=
  jsTrim (wordReplace "None" "null" (wordReplace "False" "false"
    (wordReplace "True" "true" expr)))

/-- `.replace(/\{([^}]+)\}/g, '$\x7b$1\x7d')` inside an f-string body:
each brace group of at least one non-`\x7d` character gains a leading
`$`. -/
def fstringBraces : List Char → List Char
  | [] => []
  | c :: cs =>
    if c = '{' then
      if hg : (cs.takeWhile (fun d => d ≠ '}')).length ≠ 0 ∧
          (cs.drop (cs.takeWhile (fun d => d ≠ '}')).length).head? = some '}' then
        '$' :: '{' ::
          (cs.takeWhile (fun d => d ≠ '}') ++ '}' ::
            fstringBraces (cs.drop (cs.takeWhile (fun d => d ≠ '}')).length).tail)
      else c :: fstringBraces cs
    else c :: fstringBraces cs
termination_by l => l.length
decreasing_by
  · have h1 := len_drop_le (cs.takeWhile (fun d => d ≠ '}')).length cs
    have h2 : cs.drop (cs.takeWhile (fun d => d ≠ '}')).length ≠ [] := by
      intro hnil; rw [hnil] at hg; exact Option.noConfusion hg.2
    have h3 := List.length_pos.mpr h2
    have h4 := List.length_tail (cs.drop (cs.takeWhile (fun d => d ≠ '}')).length)
    simp only [List.length_cons]
    omega
  · simp
  · simp

/-- `PythonConverter.convertPythonPrint`: f-strings become template
literals (strip the `f` and the quotes, `$`-prefix the brace groups,
wrap in backquotes); anything else passes through. -/
def convertPythonPrint (content : String) : String :=
  if jsStartsWith content "f\"" || jsStartsWith content "f\x27" then
    "`" ++ (⟨fstringBraces ((content.data.drop 2).dropLast)⟩ : String) ++ "`"
  else content

/-- The lazy group of `/^def\s+(\w+)\s*\((.*?)\)\s*:$/` after the opening
parenthesis: the shortest prefix (newline-free, since `.` does not match
newlines) whose following `)` is separated from the final `:` only by
whitespace.  `none` when no such split exists. -/
def lazyUpToParenColon : List Char → Option (List Char)
  | [] => none
  | c :: cs =>
    if c = ')' && decide (cs.dropWhile jsIsSpace = [':']) then some []
    else if c = '\n' then none
    else (lazyUpToParenColon cs).map (fun g => c :: g)

/-- `line.match(/^def\s+(\w+)\s*\((.*?)\)\s*:$/)`: the name and parameter
captures, `none` when the regex does not match. -/
def matchDef (l : List Char) : Option (String × String) :=
  if isPrefixL "def".data l then
    let r0 := l.drop 3
    let r1 := r0.dropWhile jsIsSpace
    if r0.length = r1.length then none
    else
      let name := r1.takeWhile isWordChar
      if name.length = 0 then none
      else
        let r2 := (r1.drop name.length).dropWhile jsIsSpace
        match r2 with
        | '(' :: r3 => (lazyUpToParenColon r3).map (fun ps => (⟨name⟩, ⟨ps⟩))
        | _ => none
  else none

/-- `line.match(/^for\s+(\w+)\s+in\s+range\s*\((.*?)\)\s*:$/)`: the loop
variable and range-argument captures. -/
def matchForRange (l : List Char) : Option (String × String) :=
  if isPrefixL "for".data l then
    let r0 := l.drop 3
    let r1 := r0.dropWhile jsIsSpace
    if r0.length = r1.length then none
    else
      let v := r1.takeWhile isWordChar
      if v.length = 0 then none
      else
        let r2 := r1.drop v.length
        let r3 := r2.dropWhile jsIsSpace
        if r2.length = r3.length then none
        else if isPrefixL "in".data r3 then
          let r4 := r3.drop 2
          let r5 := r4.dropWhile jsIsSpace
          if r4.length = r5.length then none
          else if isPrefixL "range".data r5 then
            let r6 := (r5.drop 5).dropWhile jsIsSpace
            match r6 with
            | '(' :: r7 => (lazyUpToParenColon r7).map (fun ps => (⟨v⟩, ⟨ps⟩))
            | _ => none
          else none
        else none
  else none

/-- `line.match(/print\s*\((.*?)\)$/)` under the `startsWith('print(')`
guard: every candidate match needs the final character to be `)` (the
pattern ends `\)$`), and then the leftmost match starts at 0 with the
lazy group forced to everything between `print(` and that last `)`. -/
def matchPrint (l : List Char) : Option (List Char) :=
  if (l.drop 6).getLast? = some ')' then some (l.drop 6).dropLast else none

/-- The function-definition branch of `convertPythonLineToJS` (guard plus
regex; `none` falls through to the next branch, as in the source). -/
def tryDef (line : String) : Option String :=
  if jsStartsWith line "def " && jsEndsWith line ":" then
    (matchDef line.data).map (fun fp =>
      "function " ++ fp.1 ++ "(" ++ fp.2 ++ ") \x7b")
  else none

/-- The if-statement branch: `line.slice(3, -1).trim()` is the condition. -/
def tryIf (line : String) : Option String :=
  if jsStartsWith line "if " && jsEndsWith line ":" then
    some ("if (" ++ convertPythonCondition (jsTrim ⟨(line.data.drop 3).dropLast⟩) ++ ") \x7b")
  else none

/-- The `for … in range(…)` branch. -/
def tryForRange (line : String) : Option String :=
  if jsStartsWith line "for " && containsSub line " in range(" && jsEndsWith line ":" then
    (matchForRange line.data).map (fun vp =>
      "for (let " ++ vp.1 ++ " = 0; " ++ vp.1 ++ " < " ++ vp.2 ++ "; " ++ vp.1 ++ "++) \x7b")
  else none

/-- The return-statement branch (`line.substring(7)`). -/
def tryReturn (line : String) : Option String :=
  if jsStartsWith line "return " then
    some ("return " ++ convertPythonExpression ⟨line.data.drop 7⟩ ++ ";")
  else none

/-- The print-statement branch. -/
def tryPrint (line : String) : Option String :=
  if jsStartsWith line "print(" then
    (matchPrint line.data).map (fun content =>
      "console.log(" ++ convertPythonPrint ⟨content⟩ ++ ");")
  else none

/-- `PythonConverter.convertPythonLineToJS`: the five guarded branches in
source order, falling through to expression conversion with a `;`
appended when missing. -/
def convertPythonLineToJS (line : String) : String :=
  if line = "" then ""
  else
    match tryDef line <|> tryIf line <|> tryForRange line <|>
        tryReturn line <|> tryPrint line with
    | some r => r
    | none =>
      let converted := convertPythonExpression line
      if jsEndsWith converted ";" then converted else converted ++ ";"

/-- `PythonConverter.getIndentLevel`: length minus trimStart length. -/
def getIndentLevel (line : String) : Nat :=
  line.length - (jsTrimStart line).length

/-- `PythonConverter.addIndent`. -/
def addIndent (line : String) (level : Nat) : String :=
  if jsTrim line = "" then line else repeatStr " " level ++ line

/-- `PythonConverter.getBlockType`. -/
def getBlockType (line : String) : Option String :=
  if jsStartsWith line "def " then some "function"
  else if jsStartsWith line "class " then some "class"
  else if jsStartsWith line "if " then some "if"
  else if jsStartsWith line "for " then some "for"
  else if jsStartsWith line "while " then some "while"
  else if jsStartsWith line "try" then some "try"
  else none

/-- `PythonConverter.closeBlocksIfNeeded`: pop every stack block whose
indent is at least the current indent, emitting an indented `\x7d` for
each; returns the emitted closers and the remaining stack (head = top). -/
def closeBlocks : List (String × Nat) → Nat → List String × List (String × Nat)
  | [], _ => ([], [])
  | (bt, bi) :: st, ci =>
    if ci ≤ bi then
      let p := closeBlocks st ci
      (addIndent "\x7d" bi :: p.1, p.2)
    else ([], (bt, bi) :: st)

/-- The line loop of `convertPythonToJS`: blank and `#` lines pass through
verbatim, other lines close due blocks, convert, and push a block record
when they end in `:` and start a known block. -/
def convertPyGo : List String → List String → List (String × Nat) →
    List String × List (String × Nat)
  | [], jsLines, stack => (jsLines, stack)
  | line :: rest, jsLines, stack =>
    let trimmed := jsTrim line
    let currentIndent := getIndentLevel line
    if trimmed = "" || jsStartsWith trimmed "#" then
      convertPyGo rest (jsLines ++ [line]) stack
    else
      let closed := closeBlocks stack currentIndent
      let jsLine := convertPythonLineToJS trimmed
      let stack2 :=
        if jsEndsWith trimmed ":" then
          match getBlockType trimmed with
          | some bt => (bt, currentIndent) :: closed.2
          | none => closed.2
        else closed.2
      convertPyGo rest (jsLines ++ closed.1 ++ [addIndent jsLine currentIndent]) stack2

/-- The Python block-starter keywords of `PythonConverter.formatCode`'s
regexes, in alternation order (no alternative is a prefix of another, so
the first prefix match is the regex's choice). -/
def pyKwStrs : List String :=
  ["def", "class", "if", "elif", "else", "for", "while", "try", "except",
   "finally", "with"]

def pyKwsL : List (List Char) := pyKwStrs.map String.data

/-- The dedent keywords `^(else|elif|except|finally)\b`. -/
def pyDedentKws : List String := ["else", "elif", "except", "finally"]

/-- One attempted match of
`/(def|class|…|with)\s+[^:\n]*:(?!\s*[\r\n])/` at the head of `l`: the
keyword, a non-empty whitespace run, a run free of `:` and newlines, the
`:`, and the negative lookahead.  Returns the matched text and the
remainder. -/
def matchColonHead (l : List Char) : Option (List Char × List Char) :=
  match pyKwsL.find? (fun kw => isPrefixL kw l) with
  | some kw =>
    let after := l.drop kw.length
    let run := after.takeWhile jsIsSpace
    if run.length = 0 then none
    else
      let r2 := after.drop run.length
      let body := r2.takeWhile (fun d => !(d = ':') && !(d = '\n'))
      let r3 := r2.drop body.length
      if r3.head? = some ':' && !followedByNL r3.tail then
        some (kw ++ run ++ body ++ [':'], r3.tail)
      else none
  | none => none

lemma matchColonHead_rest_lt (l m rest : List Char)
    (h : matchColonHead l = some (m, rest)) : rest.length < l.length := by
  unfold matchColonHead at h
  split at h
  · next kw _ =>
    simp only [] at h
    split at h
    · exact Option.noConfusion h
    · next hrun =>
      split at h
      · next hcol =>
        have hr := (Option.some.injEq _ _).mp h
        have hrest : rest = (((l.drop kw.length).drop
            ((l.drop kw.length).takeWhile jsIsSpace).length).drop
            (((l.drop kw.length).drop
              ((l.drop kw.length).takeWhile jsIsSpace).length).takeWhile
                (fun d => !(d = ':') && !(d = '\n'))).length).tail := by
          have := congrArg Prod.snd hr
          simpa using this.symm
        have hne : ((l.drop kw.length).drop
            ((l.drop kw.length).takeWhile jsIsSpace).length).drop
            (((l.drop kw.length).drop
              ((l.drop kw.length).takeWhile jsIsSpace).length).takeWhile
                (fun d => !(d = ':') && !(d = '\n'))).length ≠ [] := by
          intro hnil
          rw [hnil] at hcol
          simp at hcol
        have h1 := len_drop_le kw.length l
        have h2 := len_drop_le ((l.drop kw.length).takeWhile jsIsSpace).length
          (l.drop kw.length)
        have h3 := len_drop_le (((l.drop kw.length).drop
          ((l.drop kw.length).takeWhile jsIsSpace).length).takeWhile
            (fun d => !(d = ':') && !(d = '\n'))).length
          ((l.drop kw.length).drop ((l.drop kw.length).takeWhile jsIsSpace).length)
        have h4 := List.length_pos.mpr hne
        have h5 := List.length_tail (((l.drop kw.length).drop
          ((l.drop kw.length).takeWhile jsIsSpace).length).drop
          (((l.drop kw.length).drop
            ((l.drop kw.length).takeWhile jsIsSpace).length).takeWhile
              (fun d => !(d = ':') && !(d = '\n'))).length)
        rw [hrest]
        -- run.length ≥ 1 gives the strict step through the middle drop
        have hrunpos : 0 < ((l.drop kw.length).takeWhile jsIsSpace).length := by
          omega
        have h6 : ((l.drop kw.length).drop
            ((l.drop kw.length).takeWhile jsIsSpace).length).length =
            (l.drop kw.length).length -
              ((l.drop kw.length).takeWhile jsIsSpace).length := by
          rw [List.length_drop]
        have h7 := len_takeWhile_le jsIsSpace (l.drop kw.length)
        omega
      · exact Option.noConfusion h
  · exact Option.noConfusion h

/-- `.replace(/(def|class|…|with)\s+[^:\n]*:(?!\s*[\r\n])/g, '$&\n')`:
append a newline after each matched block-starter colon. -/
def pyColonBreak : List Char → List Char
  | [] => []
  | c :: cs =>
    if h : (matchColonHead (c :: cs)).isSome then
      ((matchColonHead (c :: cs)).get h).1 ++ '\n' ::
        pyColonBreak ((matchColonHead (c :: cs)).get h).2
    else c :: pyColonBreak cs
termination_by l => l.length
decreasing_by
  · exact matchColonHead_rest_lt (c :: cs) ((matchColonHead (c :: cs)).get h).1
      ((matchColonHead (c :: cs)).get h).2 (Option.some_get h).symm
  · simp

/-- `.replace(/\b(def|class|…|with)\s+/g, '\n$1 ')`: `prevWord` tracks the
word-boundary state of the scan position (after a replacement the last
consumed character is whitespace, so the boundary holds again). -/
def pyKwNewlineGo : Bool → List Char → List Char
  | _, [] => []
  | prevWord, c :: cs =>
    match (if prevWord then none else pyKwsL.find? (fun kw => isPrefixL kw (c :: cs))) with
    | some kw =>
      let after := (c :: cs).drop kw.length
      let run := after.takeWhile jsIsSpace
      if hrun : run.length = 0 then c :: pyKwNewlineGo (isWordChar c) cs
      else '\n' :: (kw ++ ' ' :: pyKwNewlineGo false (after.drop run.length))
    | none => c :: pyKwNewlineGo (isWordChar c) cs
termination_by _ l => l.length
decreasing_by
  · simp
  · unfold_let run after at hrun ⊢
    have h1 := len_drop_le kw.length (c :: cs)
    have h2 := len_takeWhile_le jsIsSpace ((c :: cs).drop kw.length)
    simp only [List.length_drop, List.length_cons] at *
    omega

/-- `.replace(/^\n/, '')`: one leading newline at most is removed. -/
def stripOneLeadingNL : List Char → List Char
  | '\n' :: cs => cs
  | l => l

/-- `PythonConverter.formatCode`'s line loop: blank-line dedup, bare-`;`
skip, dedent before `else|elif|except|finally`, 4-space indent, indent
after block-starter `…:` lines, and the extra indent after dedent
keywords ending in `:`. -/
def pyLoop : List String → List String → Int → List String × Int
  | [], formatted, lvl => (formatted, lvl)
  | line :: rest, formatted, lvl =>
    let trimmed := jsTrim line
    if trimmed = "" then
      if formatted.length > 0 ∧ formatted.getLast? ≠ some "" then
        pyLoop rest (formatted ++ [""]) lvl
      else pyLoop rest formatted lvl
    else if trimmed = ";" then pyLoop rest formatted lvl
    else
      let lvl1 := if startsWithWordAny pyDedentKws trimmed then max 0 (lvl - 1) else lvl
      let newLine := repeatStr "    " lvl1.toNat ++ trimmed
      let lvl2 := if startsWithWordAny pyKwStrs trimmed && jsEndsWith trimmed ":" then
        lvl1 + 1 else lvl1
      let lvl3 := if startsWithWordAny pyDedentKws trimmed && jsEndsWith trimmed ":" then
        lvl2 + 1 else lvl2
      pyLoop rest (formatted ++ [newLine]) lvl3

/-- `PythonConverter.formatCode`: the four preprocessing replacements, the
split, the line loop, and the shared final normalization. -/
def pythonFormatCode (code : String) : String :=
  if code = "" then ""
  else
    let pre := stripOneLeadingNL (pyKwNewlineGo false
      (pyColonBreak (insSemiNL (repSemiSemi code.data))))
    finalizeOutput (joinNL
      (pyLoop ((splitNLChars pre).map (fun l => (⟨l⟩ : String))) [] 0).1)

/-- `PythonConverter.convertPythonToJS`: split, run the block loop, close
the remaining blocks (top first), join, and format. -/
def convertPythonToJS (pythonCode : String) : String :=
  let r := convertPyGo (splitNL pythonCode) [] []
  pythonFormatCode (joinNL (r.1 ++ r.2.map (fun b => addIndent "\x7d" b.2)))

/-- `PythonConverter.parseToAST` (the override): a single-`Expression`
`Program` holding the whole JavaScript translation. -/
def pythonParseToAST (sourceCode : String) : AST :=
  { body := [Node.mk
      { ntype := "Expression"
        originalLine := some (convertPythonToJS sourceCode)
        line := 1 }
      none],
    sourceLanguage := "JavaScript",
    originalCode := convertPythonToJS sourceCode }

/-- `PythonConverter.generateFromAST` (the override): direct conversion of
the recorded original code, ignoring the node list. -/
def pythonGenerateFromAST (ast : AST) : String :=
  convertPythonToJS ast.originalCode

/-- C9: for every Python input, `PythonConverter.parseToAST` bypasses the
generic per-line tree: its `Program` body is exactly one node, that node
is an `Expression` whose `originalLine` holds the entire input already
translated to JavaScript text by `convertPythonToJS`, the program's
`sourceLanguage` is `"JavaScript"`, and its `originalCode` is that same
JavaScript translation — so the target-language emitter for any `toLang`
receives the JavaScript translation rather than a node sequence of the
original Python lines. -/
theorem pythonParseToAST_bypasses_tree (src : String) :
    (pythonParseToAST src).body.length = 1 ∧
    (pythonParseToAST src).body.map Node.ntype = ["Expression"] ∧
    (pythonParseToAST src).body.map Node.originalLine =
      [some (convertPythonToJS src)] ∧
    (pythonParseToAST src).sourceLanguage = "JavaScript" ∧
    (pythonParseToAST src).originalCode = convertPythonToJS src :=
  ⟨rfl, rfl, rfl, rfl, rfl⟩

/-! ## BaseLanguageConverter: comment extraction, tree building and
comment restoration (`parseToAST`'s three structural stages)

The JS `commentMap` is a `Map` from original line index to index in the
`comments` array; keys are set once per loop iteration with strictly
increasing line indices, so a list of pairs with `find?` lookup models
`has`/`get` exactly. -/

/-- The record returned by `extractCommentsWithContext`. -/
structure ExtractResult where
  cleanCode : String
  comments : List CommentRec
  commentMap : List (Nat × Nat)
  deriving Repr

/-- The loop of `extractCommentsWithContext` over the enumerated lines:
full-line comments become empty placeholder clean lines plus a `fullLine`
comment record, inline-comment lines keep their code part and add an
`inline` record; the map entry is `(i, comments.length)` set right before
the push (so it indexes the pushed record). -/
def extractLoop (h : Hooks) : List (Nat × String) → List String →
    List CommentRec → List (Nat × Nat) →
    List String × List CommentRec × List (Nat × Nat)
  | [], clean, comments, cmap => (clean, comments, cmap)
  | (i, line) :: rest, clean, comments, cmap =>
    if line = "" then extractLoop h rest (clean ++ [""]) comments cmap
    else
      let trimmed := jsTrim line
      if h.isFullLineComment trimmed then
        extractLoop h rest (clean ++ [""])
          (comments ++ [{ ctype := "fullLine", content := trimmed, originalLine := i,
                          indentation := some (line.length - (jsTrimStart line).length) }])
          (cmap ++ [(i, comments.length)])
      else if h.hasInlineComment line then
        extractLoop h rest (clean ++ [(h.splitInlineComment line).1])
          (comments ++ [{ ctype := "inline", content := (h.splitInlineComment line).2,
                          originalLine := i,
                          associatedCode := some (jsTrim (h.splitInlineComment line).1) }])
          (cmap ++ [(i, comments.length)])
      else extractLoop h rest (clean ++ [line]) comments cmap

/-- `BaseLanguageConverter.extractCommentsWithContext`. -/
def extractCommentsWithContext (h : Hooks) (sourceCode : String) : ExtractResult :=
  if sourceCode = "" then { cleanCode := "", comments := [], commentMap := [] }
  else
    let r := extractLoop h (splitNL sourceCode).enum [] [] []
    { cleanCode := joinNL r.1, comments := r.2.1, commentMap := r.2.2 }

/-- The loop of `createAST` over the enumerated lines: blank lines become
`EmptyLine` nodes, every other line becomes exactly the `parseLineToNode`
result (which is always a node); the block stack and current context feed
the nodes' `context` field, and `complexity` counts definitions. -/
def createGo (h : Hooks) : List (Nat × String) → List Node → Option Node →
    List Node → Nat → List Node × Nat
  | [], body, _, _, cx => (body, cx)
  | (i, line) :: rest, body, ctx, stack, cx =>
    let trimmedLine := jsTrim line
    if trimmedLine = "" then
      createGo h rest (body ++ [.mk { ntype := "EmptyLine", line := i + 1 } none])
        ctx stack cx
    else
      let node := parseLineToNode h line (i + 1) ctx
      let cx2 := if node.ntype = "FunctionDefinition" || node.ntype = "ClassDefinition"
        then cx + 1 else cx
      if h.isBlockStart node then
        createGo h rest (body ++ [node]) (some node) (stack ++ [node]) cx2
      else if h.isBlockEnd trimmedLine then
        createGo h rest (body ++ [node]) (stack.dropLast).getLast? stack.dropLast cx2
      else createGo h rest (body ++ [node]) ctx stack cx2

/-- `BaseLanguageConverter.createAST`. -/
def createAST (h : Hooks) (langName sourceCode : String) : AST :=
  let r := createGo h (splitNL sourceCode).enum [] none [] 0
  { body := r.1,
    sourceLanguage := langName,
    originalCode := sourceCode,
    totalLines := some (splitNL sourceCode).length,
    complexity := some r.2 }

/-- The loop of `restoreCommentsToAST` over the body: a node whose
`line - 1` is a `fullLine`-comment line gains a standalone `Comment` node
right before it; an `inline` hit sets the node's `inlineComment` field. -/
def restoreGo (comments : List CommentRec) (cmap : List (Nat × Nat)) :
    List Node → List Node
  | [] => []
  | node :: rest =>
    match (cmap.find? (fun p => p.1 = node.line - 1)).bind
        (fun p => comments.get? p.2) with
    | some c =>
      if c.ctype = "fullLine" then
        Node.mk { ntype := "Comment", content := some c.content,
                  line := c.originalLine + 1, indentation := c.indentation } none
          :: node :: restoreGo comments cmap rest
      else if c.ctype = "inline" then
        node.setInlineComment c.content :: restoreGo comments cmap rest
      else node :: restoreGo comments cmap rest
    | none => node :: restoreGo comments cmap rest

/-- `BaseLanguageConverter.restoreCommentsToAST` (in-place body update). -/
def restoreCommentsToAST (ast : AST) (comments : List CommentRec)
    (cmap : List (Nat × Nat)) : AST :=
  { ast with body := restoreGo comments cmap ast.body }

/-- `BaseLanguageConverter.parseToAST`'s structural pipeline: extract the
comments, build the tree from the clean code, restore the comments.
(The initial `validateSyntax` call only pushes warnings and does not touch
the tree.) -/
def baseParseToAST (h : Hooks) (langName sourceCode : String) : AST :=
  let er := extractCommentsWithContext h sourceCode
  restoreCommentsToAST (createAST h langName er.cleanCode) er.comments er.commentMap

lemma splitNLChars_single (l : List Char) (h : '\n' ∉ l) :
    splitNLChars l = [l] := by
  induction l with
  | nil => rfl
  | cons c cs ih =>
    have hc : c ≠ '\n' := fun hh => h (hh ▸ List.mem_cons_self c cs)
    have hcs : '\n' ∉ cs := fun hh => h (List.mem_cons_of_mem c hh)
    rw [splitNLChars, if_neg hc, ih hcs]

lemma splitNLChars_append_nl (x r : List Char) (h : '\n' ∉ x) :
    splitNLChars (x ++ '\n' :: r) = x :: splitNLChars r := by
  induction x with
  | nil => simp [splitNLChars]
  | cons c cx ih =>
    have hc : c ≠ '\n' := fun hh => h (hh ▸ List.mem_cons_self c cx)
    have hcx : '\n' ∉ cx := fun hh => h (List.mem_cons_of_mem c hh)
    show splitNLChars (c :: (cx ++ '\n' :: r)) = (c :: cx) :: splitNLChars r
    rw [splitNLChars, if_neg hc, ih hcx]

lemma split_join_id : ∀ (ls : List (List Char)), ls ≠ [] →
    (∀ x ∈ ls, '\n' ∉ x) → splitNLChars (joinNLChars ls) = ls := by
  intro ls
  induction ls with
  | nil => intro h; exact absurd rfl h
  | cons x rest ih =>
    intro _ hfree
    cases rest with
    | nil =>
      show splitNLChars (joinNLChars [x]) = [x]
      have : joinNLChars [x] = x := rfl
      rw [this]
      exact splitNLChars_single x (hfree x (List.mem_cons_self _ _))
    | cons y rest' =>
      have hj : joinNLChars (x :: y :: rest') = x ++ '\n' :: joinNLChars (y :: rest') := rfl
      rw [hj, splitNLChars_append_nl _ _ (hfree x (List.mem_cons_self _ _))]
      rw [ih (by simp) (fun z hz => hfree z (List.mem_cons_of_mem _ hz))]

lemma parseLineToNode_line (h : Hooks) (line : String) (n : Nat)
    (ctx : Option Node) : (parseLineToNode h line n ctx).line = n := by
  unfold parseLineToNode
  dsimp only
  split_ifs <;> rfl

lemma parseLineToNode_ntype_ne_comment (h : Hooks) (line : String) (n : Nat)
    (ctx : Option Node) : (parseLineToNode h line n ctx).ntype ≠ "Comment" := by
  unfold parseLineToNode
  dsimp only
  split_ifs <;> simp [parseFunctionDefinitionB, parseClassDefinitionB,
    parseVariableAssignmentB, parseControlFlowB, parseImportExportB,
    parseExpressionB, Node.ntype, Node.data]

lemma setInlineComment_ntype (n : Node) (s : String) :
    (n.setInlineComment s).ntype = n.ntype := by
  cases n with
  | mk d c => rfl

lemma setInlineComment_line (n : Node) (s : String) :
    (n.setInlineComment s).line = n.line := by
  cases n with
  | mk d c => rfl

/-- The extraction-loop invariant: one clean line per input line (all
newline-free when the split hook is newline-safe), the map mirroring the
enumerated comment list, and comment lines strictly increasing within the
processed range. -/
lemma extract_inv (h : Hooks)
    (hsplit : ∀ line : String, '\n' ∉ line.data → '\n' ∉ (h.splitInlineComment line).1.data) :
    ∀ (lines : List String) (s : Nat) (clean : List String)
      (comments : List CommentRec) (cmap : List (Nat × Nat)),
    (∀ l ∈ lines, '\n' ∉ l.data) →
    ∃ nc nm,
      (extractLoop h (List.enumFrom s lines) clean comments cmap).1 = clean ++ nc ∧
      (extractLoop h (List.enumFrom s lines) clean comments cmap).2.1 = comments ++ nm ∧
      (extractLoop h (List.enumFrom s lines) clean comments cmap).2.2 =
        cmap ++ (nm.enumFrom comments.length).map (fun p => (p.2.originalLine, p.1)) ∧
      nc.length = lines.length ∧
      (∀ x ∈ nc, '\n' ∉ x.data) ∧
      (∀ c ∈ nm, s ≤ c.originalLine ∧ c.originalLine < s + lines.length) ∧
      List.Pairwise (fun a b => a.originalLine < b.originalLine) nm := by
  intro lines
  induction lines with
  | nil =>
    intro s clean comments cmap _
    exact ⟨[], [], by simp [List.enumFrom, extractLoop],
      by simp [List.enumFrom, extractLoop],
      by simp [List.enumFrom, extractLoop], rfl, by simp, by simp, by simp⟩
  | cons l ls ih =>
    intro s clean comments cmap hfree
    have hl : '\n' ∉ l.data := hfree l (List.mem_cons_self _ _)
    have hls : ∀ x ∈ ls, '\n' ∉ x.data := fun x hx => hfree x (List.mem_cons_of_mem _ hx)
    have hstep : List.enumFrom s (l :: ls) = (s, l) :: List.enumFrom (s + 1) ls := rfl
    rw [hstep, extractLoop]
    dsimp only
    by_cases h0 : l = ""
    · rw [if_pos h0]
      obtain ⟨nc, nm, hA, hB, hC, hD, hE, hF, hG⟩ := ih (s + 1) (clean ++ [""]) comments cmap hls
      refine ⟨"" :: nc, nm, ?_, hB, hC, ?_, ?_, ?_, hG⟩
      · rw [hA]; simp
      · simp [hD]
      · intro x hx
        rcases List.mem_cons.mp hx with rfl | hx'
        · simp
        · exact hE x hx'
      · intro c hc; have := hF c hc
        simp only [List.length_cons]
        constructor <;> omega
    · rw [if_neg h0]
      by_cases h1 : h.isFullLineComment (jsTrim l) = true
      · rw [if_pos h1]
        obtain ⟨nc, nm, hA, hB, hC, hD, hE, hF, hG⟩ := ih (s + 1) (clean ++ [""])
          (comments ++ [{ ctype := "fullLine", content := jsTrim l, originalLine := s,
                          indentation := some (l.length - (jsTrimStart l).length) }])
          (cmap ++ [(s, comments.length)]) hls
        refine ⟨"" :: nc,
          { ctype := "fullLine", content := jsTrim l, originalLine := s,
            indentation := some (l.length - (jsTrimStart l).length) } :: nm,
          ?_, ?_, ?_, ?_, ?_, ?_, ?_⟩
        · rw [hA]; simp
        · rw [hB]; simp
        · rw [hC]; simp [List.enumFrom, List.append_assoc]
        · simp [hD]
        · intro x hx
          rcases List.mem_cons.mp hx with rfl | hx'
          · simp
          · exact hE x hx'
        · intro c hc
          rcases List.mem_cons.mp hc with rfl | hc'
          · constructor
            · exact Nat.le_refl s
            · show s < s + (l :: ls).length
              simp only [List.length_cons]
              omega
          · have := hF c hc'
            simp only [List.length_cons]
            constructor <;> omega
        · refine List.Pairwise.cons ?_ hG
          intro b hb
          have := (hF b hb).1
          show s < b.originalLine
          omega
      · rw [if_neg h1]
        by_cases h2 : h.hasInlineComment l = true
        · rw [if_pos h2]
          obtain ⟨nc, nm, hA, hB, hC, hD, hE, hF, hG⟩ := ih (s + 1)
            (clean ++ [(h.splitInlineComment l).1])
            (comments ++ [{ ctype := "inline", content := (h.splitInlineComment l).2,
                            originalLine := s,
                            associatedCode := some (jsTrim (h.splitInlineComment l).1) }])
            (cmap ++ [(s, comments.length)]) hls
          refine ⟨(h.splitInlineComment l).1 :: nc,
            { ctype := "inline", content := (h.splitInlineComment l).2, originalLine := s,
              associatedCode := some (jsTrim (h.splitInlineComment l).1) } :: nm,
            ?_, ?_, ?_, ?_, ?_, ?_, ?_⟩
          · rw [hA]; simp
          · rw [hB]; simp
          · rw [hC]; simp [List.enumFrom, List.append_assoc]
          · simp [hD]
          · intro x hx
            rcases List.mem_cons.mp hx with rfl | hx'
            · exact hsplit l hl
            · exact hE x hx'
          · intro c hc
            rcases List.mem_cons.mp hc with rfl | hc'
            · constructor
              · exact Nat.le_refl s
              · show s < s + (l :: ls).length
                simp only [List.length_cons]
                omega
            · have := hF c hc'
              simp only [List.length_cons]
              constructor <;> omega
          · refine List.Pairwise.cons ?_ hG
            intro b hb
            have := (hF b hb).1
            show s < b.originalLine
            omega
        · rw [if_neg h2]
          obtain ⟨nc, nm, hA, hB, hC, hD, hE, hF, hG⟩ := ih (s + 1) (clean ++ [l])
            comments cmap hls
          refine ⟨l :: nc, nm, ?_, hB, hC, ?_, ?_, ?_, hG⟩
          · rw [hA]; simp
          · simp [hD]
          · intro x hx
            rcases List.mem_cons.mp hx with rfl | hx'
            · exact hl
            · exact hE x hx'
          · intro c hc; have := hF c hc
            simp only [List.length_cons]
            constructor <;> omega

/-- `createAST`'s loop emits exactly one node per line, with line numbers
`s+1, s+2, …` in order (for every hook record, context and stack). -/
lemma createGo_lines (h : Hooks) :
    ∀ (lines : List String) (s : Nat) (body : List Node) (ctx : Option Node)
      (stack : List Node) (cx : Nat),
    (createGo h (List.enumFrom s lines) body ctx stack cx).1.map Node.line =
      body.map Node.line ++ List.range' (s + 1) lines.length := by
  intro lines
  induction lines with
  | nil =>
    intro s body ctx stack cx
    simp [List.enumFrom, createGo]
  | cons l ls ih =>
    intro s body ctx stack cx
    have hstep : List.enumFrom s (l :: ls) = (s, l) :: List.enumFrom (s + 1) ls := rfl
    rw [hstep, createGo]
    dsimp only
    split_ifs
    case _ =>
      rw [ih]
      simp [Node.line, Node.data, List.range'_succ, List.append_assoc]
    all_goals
      rw [ih]
      simp [parseLineToNode_line, List.range'_succ, List.append_assoc]

/-- No node emitted by `createAST`'s loop is a `Comment` node. -/
lemma createGo_no_comment (h : Hooks) :
    ∀ (lines : List (Nat × String)) (body : List Node) (ctx : Option Node)
      (stack : List Node) (cx : Nat),
    (∀ x ∈ body, x.ntype ≠ "Comment") →
    ∀ x ∈ (createGo h lines body ctx stack cx).1, x.ntype ≠ "Comment" := by
  intro lines
  induction lines with
  | nil =>
    intro body ctx stack cx hbody x hx
    exact hbody x (by simpa [createGo] using hx)
  | cons il rest ih =>
    intro body ctx stack cx hbody x hx
    obtain ⟨i, line⟩ := il
    rw [createGo] at hx
    dsimp only at hx
    have hstep : ∀ (node : Node), node.ntype ≠ "Comment" →
        ∀ y ∈ body ++ [node], y.ntype ≠ "Comment" := by
      intro node hnode y hy
      rcases List.mem_append.mp hy with hy' | hy'
      · exact hbody y hy'
      · simp at hy'
        rw [hy']
        exact hnode
    split_ifs at hx
    case _ => exact ih _ _ _ _ (hstep _ (by simp [Node.ntype, Node.data])) x hx
    all_goals
      exact ih _ _ _ _ (hstep _ (parseLineToNode_ntype_ne_comment h line (i + 1) ctx)) x hx

/-- The `Map`-lookup of the mirrored comment map resolves to the first
comment with the queried original line. -/
lemma lookup_enumMap (i : Nat) :
    ∀ (comments all : List CommentRec) (s : Nat),
    (∀ (k : Nat) (c : CommentRec), comments.get? k = some c → all.get? (s + k) = some c) →
    (((comments.enumFrom s).map (fun p => (p.2.originalLine, p.1))).find?
        (fun p => p.1 = i)).bind (fun p => all.get? p.2) =
      comments.find? (fun c => c.originalLine = i) := by
  intro comments
  induction comments with
  | nil => intro all s _; rfl
  | cons c cs ih =>
    intro all s hget
    have hstep : List.enumFrom s (c :: cs) = (s, c) :: List.enumFrom (s + 1) cs := rfl
    rw [hstep, List.map_cons]
    by_cases hco : c.originalLine = i
    · rw [List.find?_cons_of_pos _ (by simpa using hco),
        List.find?_cons_of_pos _ (by simpa using hco)]
      have := hget 0 c rfl
      simpa using this
    · rw [List.find?_cons_of_neg _ (by simpa using hco),
        List.find?_cons_of_neg _ (by simpa using hco)]
      refine ih all (s + 1) ?_
      intro k x hk
      have h2 := hget (k + 1) x (by simpa using hk)
      rw [show s + 1 + k = s + (k + 1) by omega]
      exact h2

lemma countP_congr' {α : Type} (p q : α → Bool) :
    ∀ l : List α, (∀ x ∈ l, p x = q x) → l.countP p = l.countP q := by
  intro l
  induction l with
  | nil => intro _; rfl
  | cons x xs ih =>
    intro hx
    rw [List.countP_cons, List.countP_cons, hx x (List.mem_cons_self _ _),
      ih (fun y hy => hx y (List.mem_cons_of_mem _ hy))]

/-- Counting over a duplicate-free list where `f` and `g` agree everywhere
except at `a` (where `g` is false). -/
lemma countP_shift (a : Nat) (f g : Nat → Bool) :
    ∀ (l : List Nat), l.Nodup → a ∈ l →
    (∀ i ∈ l, i ≠ a → f i = g i) → g a = false →
    l.countP f = l.countP g + (if f a then 1 else 0) := by
  intro l
  induction l with
  | nil => intro _ ha; exact absurd ha (List.not_mem_nil a)
  | cons x xs ih =>
    intro hnd ha hag hga
    rcases List.mem_cons.mp ha with rfl | ha'
    · have hnotin : a ∉ xs := (List.nodup_cons.mp hnd).1
      have hxs : xs.countP f = xs.countP g := countP_congr' f g xs (fun i hi =>
        hag i (List.mem_cons_of_mem _ hi) (fun hia => hnotin (hia ▸ hi)))
      rw [List.countP_cons, List.countP_cons, hxs, hga]
      simp
    · have hxa : x ≠ a := fun hxa => (List.nodup_cons.mp hnd).1 (hxa ▸ ha')
      rw [List.countP_cons, List.countP_cons, hag x (List.mem_cons_self _ _) hxa,
        ih (List.nodup_cons.mp hnd).2 ha'
          (fun i hi hia => hag i (List.mem_cons_of_mem _ hi) hia) hga]
      omega

/-- With distinct comment lines all below `n`, exactly the full-line
comments are hit when scanning the line indices `0 … n-1`. -/
lemma count_hits (n : Nat) :
    ∀ (comments : List CommentRec),
    (∀ c ∈ comments, c.originalLine < n) →
    List.Pairwise (fun a b => a.originalLine < b.originalLine) comments →
    (List.range n).countP
        (fun i => ((comments.find? (fun c => c.originalLine = i)).any
          (fun c => c.ctype = "fullLine"))) =
      comments.countP (fun c => c.ctype = "fullLine") := by
  intro comments
  induction comments with
  | nil =>
    intro _ _
    simp [List.find?]
  | cons c cs ih =>
    intro hlt hpw
    obtain ⟨hgt, hpw'⟩ := List.pairwise_cons.mp hpw
    have hcs : ∀ x ∈ cs, x.originalLine < n := fun x hx => hlt x (List.mem_cons_of_mem _ hx)
    rw [List.countP_cons, ← ih hcs hpw']
    have hco : c.originalLine ∈ List.range n :=
      List.mem_range.mpr (hlt c (List.mem_cons_self _ _))
    have hagree : ∀ i ∈ List.range n, i ≠ c.originalLine →
        (((c :: cs).find? (fun x => x.originalLine = i)).any
          (fun x => x.ctype = "fullLine")) =
        ((cs.find? (fun x => x.originalLine = i)).any
          (fun x => x.ctype = "fullLine")) := by
      intro i _ hi
      have hni : ¬(c.originalLine = i) := fun hh => hi hh.symm
      rw [List.find?_cons_of_neg _ (by simpa using hni)]
    have hgfalse : ((cs.find? (fun x => x.originalLine = c.originalLine)).any
        (fun x => x.ctype = "fullLine")) = false := by
      have hnone : cs.find? (fun x => x.originalLine = c.originalLine) = none := by
        rw [List.find?_eq_none]
        intro x hx
        have := hgt x hx
        simp
        omega
      simp [hnone]
    rw [countP_shift c.originalLine
      (fun i => (((c :: cs).find? (fun x => x.originalLine = i)).any
        (fun x => x.ctype = "fullLine")))
      (fun i => ((cs.find? (fun x => x.originalLine = i)).any
        (fun x => x.ctype = "fullLine")))
      (List.range n) (List.nodup_range n) hco hagree hgfalse]
    congr 1
    have hpos : ((c :: cs).find? (fun x => x.originalLine = c.originalLine)) = some c :=
      List.find?_cons_of_pos _ (by simp)
    rw [hpos]
    simp

/-- Restoration grows the body by exactly the number of nodes whose line
resolves to a `fullLine` comment. -/
lemma restoreGo_length (comments : List CommentRec) (cmap : List (Nat × Nat)) :
    ∀ body : List Node,
    (restoreGo comments cmap body).length = body.length + body.countP (fun node =>
      (((cmap.find? (fun p => p.1 = node.line - 1)).bind
        (fun p => comments.get? p.2)).any (fun c => c.ctype = "fullLine"))) := by
  intro body
  induction body with
  | nil => rfl
  | cons node rest ih =>
    rw [restoreGo]
    cases hm : (cmap.find? (fun p => p.1 = node.line - 1)).bind
        (fun p => comments.get? p.2) with
    | none =>
      have hm' := hm
      simp only [List.get?_eq_getElem?] at hm'
      simp [List.countP_cons, hm, hm', ih]
      omega
    | some c =>
      have hm' := hm
      simp only [List.get?_eq_getElem?] at hm'
      by_cases hful : c.ctype = "fullLine"
      · simp [List.countP_cons, hm, hm', hful, ih]
        omega
      · by_cases hinl : c.ctype = "inline"
        · simp [List.countP_cons, hm, hm', hful, hinl, ih]
          omega
        · simp [List.countP_cons, hm, hm', hful, hinl, ih]
          omega

/-- Restoration adds exactly one `Comment`-typed node per `fullLine` hit
(when the incoming body has none). -/
lemma restoreGo_commentCount (comments : List CommentRec) (cmap : List (Nat × Nat)) :
    ∀ body : List Node, (∀ x ∈ body, x.ntype ≠ "Comment") →
    (restoreGo comments cmap body).countP (fun x => x.ntype = "Comment") =
      body.countP (fun node => (((cmap.find? (fun p => p.1 = node.line - 1)).bind
        (fun p => comments.get? p.2)).any (fun c => c.ctype = "fullLine"))) := by
  intro body
  induction body with
  | nil => intro _; rfl
  | cons node rest ih =>
    intro hb
    have hnode : node.ntype ≠ "Comment" := hb node (List.mem_cons_self _ _)
    have hrest : ∀ x ∈ rest, x.ntype ≠ "Comment" := fun x hx =>
      hb x (List.mem_cons_of_mem _ hx)
    rw [restoreGo]
    cases hm : (cmap.find? (fun p => p.1 = node.line - 1)).bind
        (fun p => comments.get? p.2) with
    | none =>
      have hm' := hm
      simp only [List.get?_eq_getElem?] at hm'
      simp [List.countP_cons, hm, hm', ih hrest, hnode]
    | some c =>
      have hm' := hm
      simp only [List.get?_eq_getElem?] at hm'
      by_cases hful : c.ctype = "fullLine"
      · have hcn : (Node.mk
            { ntype := "Comment"
              content := some c.content
              line := c.originalLine + 1
              indentation := c.indentation }
            none).ntype = "Comment" := rfl
        simp [List.countP_cons, hm, hm', hful, ih hrest, hnode, hcn]
      · by_cases hinl : c.ctype = "inline"
        · have hset : (node.setInlineComment c.content).ntype ≠ "Comment" := by
            rw [setInlineComment_ntype]; exact hnode
          simp [List.countP_cons, hm, hm', hful, hinl, ih hrest, hset]
        · simp [List.countP_cons, hm, hm', hful, hinl, ih hrest, hnode]

lemma map_mk_data (ls : List String) :
    (ls.map String.data).map (fun l => (⟨l⟩ : String)) = ls := by
  induction ls with
  | nil => rfl
  | cons x xs ih =>
    show (⟨x.data⟩ : String) :: (xs.map String.data).map (fun l => (⟨l⟩ : String)) = x :: xs
    rw [ih]

/-- C4: for every source text (and every converter hook record whose
`splitInlineComment` keeps code parts newline-free, as all the real ones
do), the tree built before comment re-insertion has exactly one node per
input line; after `restoreCommentsToAST` the node count equals the
original line count plus the number of full-line comments, and exactly
that many standalone `Comment` nodes appear. -/
theorem parseToAST_node_count (h : Hooks) (langName sourceCode : String)
    (hsplit : ∀ line : String, '\n' ∉ line.data →
      '\n' ∉ (h.splitInlineComment line).1.data) :
    (createAST h langName (extractCommentsWithContext h sourceCode).cleanCode).body.length
        = (splitNL sourceCode).length ∧
    (baseParseToAST h langName sourceCode).body.length
        = (splitNL sourceCode).length +
          (extractCommentsWithContext h sourceCode).comments.countP
            (fun c => c.ctype = "fullLine") ∧
    (baseParseToAST h langName sourceCode).body.countP (fun x => x.ntype = "Comment")
        = (extractCommentsWithContext h sourceCode).comments.countP
            (fun c => c.ctype = "fullLine") := by
  by_cases hempty : sourceCode = ""
  · subst hempty
    exact ⟨rfl, rfl, rfl⟩
  · have hlines : ∀ l ∈ splitNL sourceCode, '\n' ∉ l.data := by
      intro l hl
      obtain ⟨cs, hcs, rfl⟩ := List.mem_map.mp hl
      simpa using splitNLChars_nl_free sourceCode.data cs hcs
    obtain ⟨nc, nm, hA, hB, hC, hD, hE, hF, hG⟩ :=
      extract_inv h hsplit (splitNL sourceCode) 0 [] [] [] hlines
    rw [show List.enumFrom 0 (splitNL sourceCode) = (splitNL sourceCode).enum from rfl]
      at hA hB hC
    simp only [List.nil_append] at hA hB
    simp only [List.nil_append, List.length_nil] at hC
    have hres : extractCommentsWithContext h sourceCode =
        { cleanCode := joinNL nc, comments := nm,
          commentMap := (nm.enumFrom 0).map (fun p => (p.2.originalLine, p.1)) } := by
      rw [extractCommentsWithContext, if_neg hempty]
      dsimp only
      rw [hA, hB, hC]
    have hlen0 : 0 < (splitNL sourceCode).length := by
      have h1 := splitNLChars_ne_nil sourceCode.data
      unfold splitNL
      rw [List.length_map]
      exact List.length_pos.mpr h1
    have hncne : nc ≠ [] := by
      intro h0
      rw [h0] at hD
      simp at hD
      omega
    have hsj : splitNL (joinNL nc) = nc := by
      show (splitNLChars (joinNLChars (nc.map String.data))).map
        (fun l => (⟨l⟩ : String)) = nc
      rw [split_join_id _ (by simpa using hncne)
        (fun x hx => by
          obtain ⟨y, hy, hxy⟩ := List.mem_map.mp hx
          rw [← hxy]
          exact hE y hy)]
      exact map_mk_data nc
    have hbody := createGo_lines h nc 0 [] none [] 0
    have hast : (createAST h langName (joinNL nc)).body =
        (createGo h (List.enumFrom 0 nc) [] none [] 0).1 := by
      rw [createAST]
      dsimp only
      rw [hsj]
      rfl
    have hmap : (createGo h (List.enumFrom 0 nc) [] none [] 0).1.map Node.line =
        List.range' 1 nc.length := by simpa using hbody
    have hlenB : (createGo h (List.enumFrom 0 nc) [] none [] 0).1.length = nc.length := by
      have := congrArg List.length hmap
      simpa using this
    have hlt : ∀ c ∈ nm, c.originalLine < nc.length := by
      intro c hc
      have := (hF c hc).2
      rw [hD]
      simpa using this
    have hkey : (createGo h (List.enumFrom 0 nc) [] none [] 0).1.countP (fun node =>
        ((((nm.enumFrom 0).map (fun p => (p.2.originalLine, p.1))).find?
          (fun p => p.1 = node.line - 1)).bind
          (fun p => nm.get? p.2)).any (fun c => c.ctype = "fullLine")) =
        nm.countP (fun c => c.ctype = "fullLine") := by
      have s1 : (createGo h (List.enumFrom 0 nc) [] none [] 0).1.countP (fun node =>
          ((((nm.enumFrom 0).map (fun p => (p.2.originalLine, p.1))).find?
            (fun p => p.1 = node.line - 1)).bind
            (fun p => nm.get? p.2)).any (fun c => c.ctype = "fullLine")) =
          ((createGo h (List.enumFrom 0 nc) [] none [] 0).1.map Node.line).countP
            (fun m => ((((nm.enumFrom 0).map (fun p => (p.2.originalLine, p.1))).find?
              (fun p => p.1 = m - 1)).bind
              (fun p => nm.get? p.2)).any (fun c => c.ctype = "fullLine")) := by
        rw [List.countP_map]
        exact countP_congr' _ _ _ (fun x hx => rfl)
      rw [s1, hmap, List.range'_eq_map_range, List.countP_map]
      refine Eq.trans (countP_congr' _
        (fun i => ((nm.find? (fun c => c.originalLine = i)).any
          (fun c => c.ctype = "fullLine"))) _ ?_)
        (count_hits nc.length nm hlt hG)
      intro i hi
      simp only [Function.comp_apply, Nat.add_sub_cancel_left]
      rw [lookup_enumMap i nm nm 0 (fun k c hk => by simpa using hk)]
    have hnoc : ∀ x ∈ (createGo h (List.enumFrom 0 nc) [] none [] 0).1,
        x.ntype ≠ "Comment" :=
      createGo_no_comment h (List.enumFrom 0 nc) [] none [] 0 (by simp)
    refine ⟨?_, ?_, ?_⟩
    · rw [hres]
      dsimp only
      rw [hast, hlenB, hD]
    · rw [baseParseToAST, hres]
      dsimp only
      rw [restoreCommentsToAST]
      dsimp only
      rw [hast, restoreGo_length, hkey, hlenB, hD]
    · rw [baseParseToAST, hres]
      dsimp only
      rw [restoreCommentsToAST]
      dsimp only
      rw [hast, restoreGo_commentCount _ _ _ hnoc, hkey]

/-- C4 witness: the base hooks (whose `splitInlineComment` is the identity
split, hence newline-safe) on the two-line input `"a\nb"`. -/
theorem parseToAST_node_count_witness :
    (createAST baseHooks "JavaScript"
        (extractCommentsWithContext baseHooks "a\nb").cleanCode).body.length
        = (splitNL "a\nb").length ∧
    (baseParseToAST baseHooks "JavaScript" "a\nb").body.length
        = (splitNL "a\nb").length +
          (extractCommentsWithContext baseHooks "a\nb").comments.countP
            (fun c => c.ctype = "fullLine") ∧
    (baseParseToAST baseHooks "JavaScript" "a\nb").body.countP
        (fun x => x.ntype = "Comment")
        = (extractCommentsWithContext baseHooks "a\nb").comments.countP
            (fun c => c.ctype = "fullLine") :=
  parseToAST_node_count baseHooks "JavaScript" "a\nb" (fun _ hl => hl)

end LangSwap

